import Mathlib

/-! JiwySimulator, package `light_pos`: thresholding, centre of gravity, marker.

A shallow embedding of `src/light_pos/src/image_functions.cpp` and of the frame
callback `LightPos::topic_callback_image` of `src/light_pos/src/light_pos.cpp`.

Conventions of the embedding:

* a C++ function that may throw returns `Except Failure _`;
* `int` values are `Int`; `uint32_t` values are `Nat` below `2^32`, and every
  conversion between the two that the source performs is written out
  (`toInt`, the reduction modulo `2^32` in `offset`);
* `u_int8_t` is `Byte = Fin 256`, an `int` stored into a byte is reduced modulo 256;
* `double` is modelled by exact rationals: the two accumulators only ever hold
  sums of pixel coordinates and the only other operations are one division
  followed by `round`.
-/

namespace JiwySimulator

/-- One `u_int8_t` of the pixel buffer. -/
abbrev Byte := Fin 256

/-- Ways in which a call can fail to return.  `runtime_error` and `out_of_range`
are the two exception classes thrown by `image_functions.cpp`; in the C++
standard library `std::out_of_range` derives from `std::logic_error`, not from
`std::runtime_error`.  `undefined` marks an access of `data` beyond its end,
which `std::vector::operator[]` does not check. -/
inductive Failure
  | runtime_error
  | out_of_range
  | undefined
  deriving DecidableEq

/-- Does a handler `catch (std::runtime_error &e)` take this failure? -/
def Failure.isRuntimeError : Failure → Bool
  | .runtime_error => true
  | .out_of_range => false
  | .undefined => false

/-- Modelled from the spec: the format tag of a frame.  The encoding table
`sensor_msgs::image_encodings` is declared outside `src/`; a tag is represented
by the channel count and bit depth the table gives for it, and `unknown` is a
tag the table does not list. -/
inductive Encoding
  | known (channels depth : Int)
  | unknown
  deriving DecidableEq

/-- Modelled from the spec: `sensor_msgs::image_encodings::numChannels`, which is
declared outside `src/`; it raises a runtime error for a tag it does not know. -/
def numChannels : Encoding → Except Failure Int
  | .known c _ => .ok c
  | .unknown => .error .runtime_error

/-- Modelled from the spec: `sensor_msgs::image_encodings::bitDepth`, which is
declared outside `src/`; it raises a runtime error for a tag it does not know. -/
def bitDepth : Encoding → Except Failure Int
  | .known _ d => .ok d
  | .unknown => .error .runtime_error

/-- Modelled from the spec: the frame type `sensor_msgs::msg::Image`, declared
outside `src/`.  `width`, `height` and `step` (the row stride in bytes) are
`uint32` fields and `data` is the byte sequence of the message, whose element
count is a 32-bit number as well; `fits` records these ranges.  The header and
the endianness flag, which the code only copies, are left out. -/
structure Image where
  width : Nat
  height : Nat
  step : Nat
  encoding : Encoding
  data : List Byte
  fits : width < 4294967296 ∧ height < 4294967296 ∧ step < 4294967296 ∧
    data.length < 4294967296

/-- The cast `(int)` of a `uint32_t`. -/
def toInt (n : Nat) : Int :=
  if n % 4294967296 < 2147483648 then ((n % 4294967296 : Nat) : Int)
  else ((n % 4294967296 : Nat) : Int) - 4294967296

/-- The conversion of an `int` to `u_int8_t`. -/
def toByte (v : Int) : Byte :=
  ⟨(v % 256).toNat, by omega⟩

/-- The macro `MIN_INT(a,b)`, both arguments already cast to `int`. -/
def MIN_INT (a b : Int) : Int := if a < b then a else b

/-- The macro `MAX_INT(a,b)`, both arguments already cast to `int`. -/
def MAX_INT (a b : Int) : Int := if a > b then a else b

/-- The function `round` of `<cmath>`: nearest integer, halfway cases away from zero. -/
def cmath_round (q : ℚ) : Int :=
  if 0 ≤ q then ⌊q + 1 / 2⌋ else ⌈q - 1 / 2⌉

/-- `assertCoordinateWithinRange`. -/
def assertCoordinateWithinRange (im : Image) (x y : Int) : Except Failure Unit :=
  if x < 0 ∨ x ≥ toInt im.width then .error .out_of_range
  else if y < 0 ∨ y ≥ toInt im.height then .error .out_of_range
  else .ok ()

/-- `assertSupportedImageType`. -/
def assertSupportedImageType (im : Image) : Except Failure Unit := do
  let c ← numChannels im.encoding
  if c ≠ 3 then throw .runtime_error
  let d ← bitDepth im.encoding
  if d ≠ 8 then throw .runtime_error
  pure ()

/-- The index expression `im->step * y + 3*x + k`: `step` is `uint32_t`, so the
sum is formed in 32-bit unsigned arithmetic. -/
def offset (im : Image) (x y : Int) (k : Nat) : Nat :=
  (((im.step : Int) * y + 3 * x + (k : Int)) % 4294967296).toNat

/-- The read `im->data[i]`. -/
def load (im : Image) (i : Nat) : Except Failure Byte :=
  match im.data[i]? with
  | some b => .ok b
  | none => .error .undefined

/-- The assignment `im->data[i] = v` of an `int` value. -/
def store (im : Image) (i : Nat) (v : Int) : Except Failure Image :=
  if i < im.data.length then
    .ok { im with
      data := im.data.set i (toByte v)
      fits := by rw [List.length_set]; exact im.fits }
  else .error .undefined

/-- `getPixelBrightness`. -/
def getPixelBrightness (im : Image) (x y : Int) : Except Failure Int := do
  assertSupportedImageType im
  assertCoordinateWithinRange im x y
  let ch1_value ← load im (offset im x y 0)
  let ch2_value ← load im (offset im x y 1)
  let ch3_value ← load im (offset im x y 2)
  pure (cmath_round ((((ch1_value.val + ch2_value.val + ch3_value.val : Nat) : Int) : ℚ) / 3))

/-- `setPixelColor`: the format check stands before the `try`, the coordinate
check and the three assignments inside it, and the handler takes
`std::runtime_error` only (it prints a warning and returns). -/
def setPixelColor (im : Image) (x y : Int) (ch1_value ch2_value ch3_value : Int) :
    Except Failure Image := do
  assertSupportedImageType im
  tryCatch
    (do
      assertCoordinateWithinRange im x y
      let im1 ← store im (offset im x y 0) ch1_value
      let im2 ← store im1 (offset im1 x y 1) ch2_value
      store im2 (offset im2 x y 2) ch3_value)
    (fun e => if e.isRuntimeError then pure im else throw e)

/-- The values taken by `for (int i = lo; i <= hi; i++)`. -/
def intRange (lo hi : Int) : List Int :=
  (List.range (hi + 1 - lo).toNat).map (fun (i : Nat) => lo + (i : Int))

/-- `DrawBigPixel`; `img->width-1` and `img->height-1` are formed in `uint32_t`
and then cast by the macro. -/
def DrawBigPixel (img : Image) (x y : Int) (ch1_vaule ch2_value ch3_vaule : Int)
    (size : Int) : Except Failure Image :=
  let halfSize := Int.tdiv (size - 1) 2
  (intRange (MAX_INT 0 (x - halfSize))
      (MIN_INT (toInt (img.width + 4294967295)) (x + halfSize))).foldlM
    (fun im xx =>
      (intRange (MAX_INT 0 (y - halfSize))
          (MIN_INT (toInt (im.height + 4294967295)) (y + halfSize))).foldlM
        (fun im yy => setPixelColor im xx yy ch1_vaule ch2_value ch3_vaule) im)
    img

/-- `copyImageProperties`: the assignment `*dst = *src`. -/
def copyImageProperties (_dst src : Image) : Image := src

/-- `getImageWidth`. -/
def getImageWidth (im : Image) : Int := toInt im.width

/-- `getImageHeight`. -/
def getImageHeight (im : Image) : Int := toInt im.height

/-- The image made by `new sensor_msgs::msg::Image()`. -/
def Image.new : Image :=
  { width := 0, height := 0, step := 0, encoding := .unknown, data := [],
    fits := by decide }

/-- The locals of `topic_callback_image` that the scan loop updates. -/
structure Scan where
  thr_image : Image
  cog_sum_x : ℚ
  cog_sum_y : ℚ
  cog_N : Int

/-- The body of the inner loop of `topic_callback_image` at column `x` of row `y`. -/
def scanPixel (img : Image) (brightness_threshold : Int) (y : Int) (s : Scan) (x : Int) :
    Except Failure Scan := do
  let brightness ← getPixelBrightness img x y
  if brightness ≥ brightness_threshold then
    let t ← setPixelColor s.thr_image x y 255 255 255
    pure { thr_image := t, cog_sum_x := s.cog_sum_x + x, cog_sum_y := s.cog_sum_y + y,
           cog_N := s.cog_N + 1 }
  else
    let t ← setPixelColor s.thr_image x y 0 0 0
    pure { s with thr_image := t }

/-- The inner loop `for (int x=0; x<getImageWidth(img); x++)`. -/
def scanRow (img : Image) (brightness_threshold : Int) (s : Scan) (y : Int) :
    Except Failure Scan :=
  (intRange 0 (getImageWidth img - 1)).foldlM (scanPixel img brightness_threshold y) s

/-- The scan of `topic_callback_image`: the output image is created and the
outer loop `for (int y=0; y<getImageHeight(img); y++)` is run. -/
def scanLoop (img : Image) (brightness_threshold : Int) : Except Failure Scan :=
  (intRange 0 (getImageHeight img - 1)).foldlM (scanRow img brightness_threshold)
    { thr_image := copyImageProperties Image.new img, cog_sum_x := 0, cog_sum_y := 0,
      cog_N := 0 }

/-- What one call of `topic_callback_image` publishes: the point on `cog_pos`
and the image on `image_thresholded`. -/
structure Published where
  cog_x : Int
  cog_y : Int
  thr_image : Image

/-- The centre of gravity and the marker, from the state the scan loop leaves. -/
def finishFrame (s : Scan) : Except Failure Published :=
  if s.cog_N ≠ 0 then do
    let cog_x := cmath_round (s.cog_sum_x / (s.cog_N : ℚ))
    let cog_y := cmath_round (s.cog_sum_y / (s.cog_N : ℚ))
    let t ← DrawBigPixel s.thr_image cog_x cog_y 255 0 0 5
    pure { cog_x := cog_x, cog_y := cog_y, thr_image := t }
  else
    pure { cog_x := 0, cog_y := 0, thr_image := s.thr_image }

/-- `LightPos::topic_callback_image`, the threshold parameter passed as an argument. -/
def topic_callback_image (img : Image) (brightness_threshold : Int) :
    Except Failure Published := do
  let s ← scanLoop img brightness_threshold
  finishFrame s

/-! ## Vocabulary of the statements -/

/-- A well-formed frame: three channels of eight bits, a row stride of at least
`3 * width` bytes, and a buffer holding at least `step * height` bytes. -/
def WellFormed (im : Image) : Prop :=
  im.encoding = Encoding.known 3 8 ∧ 3 * im.width ≤ im.step ∧
    im.step * im.height ≤ im.data.length

instance (im : Image) : Decidable (WellFormed im) := by
  unfold WellFormed; infer_instance

/-- Channel `k` of pixel `(x, y)`: the byte at `step * y + 3 * x + k`, if the
buffer has one there. -/
def channel (im : Image) (x y k : Nat) : Option Byte :=
  im.data[im.step * y + 3 * x + k]?

/-- The three channel bytes of pixel `(x, y)`. -/
def pixel (im : Image) (x y : Nat) : Option (Byte × Byte × Byte) :=
  match channel im x y 0, channel im x y 1, channel im x y 2 with
  | some a, some b, some c => some (a, b, c)
  | _, _, _ => none

/-- Two images agree in everything but the contents of their buffers. -/
def SameFrame (a b : Image) : Prop :=
  a.width = b.width ∧ a.height = b.height ∧ a.step = b.step ∧ a.encoding = b.encoding ∧
    a.data.length = b.data.length

/-- Pixel `(x, y)` is bright: `getPixelBrightness` returns a value that reaches the
threshold. -/
def isBright (img : Image) (thr : Int) (x y : Nat) : Bool :=
  match getPixelBrightness img (x : Int) (y : Int) with
  | .ok b => decide (b ≥ thr)
  | .error _ => false

/-- The colour the scan gives to pixel `(x, y)`. -/
def thresholdColor (img : Image) (thr : Int) (x y : Nat) : Byte × Byte × Byte :=
  if isBright img thr x y then (255, 255, 255) else (0, 0, 0)

/-- The bright coordinates among `V`. -/
def brightIn (img : Image) (thr : Int) (V : Finset (ℕ × ℕ)) : Finset (ℕ × ℕ) :=
  V.filter (fun p => isBright img thr p.1 p.2 = true)

/-- All coordinates `(x, y)` of the image, `x < width` and `y < height`. -/
def grid (img : Image) : Finset (ℕ × ℕ) :=
  Finset.range img.width ×ˢ Finset.range img.height

/-- The bright pixels of a frame. -/
def brightPixels (img : Image) (thr : Int) : Finset (ℕ × ℕ) :=
  brightIn img thr (grid img)

/-- The loop invariant of the scan once exactly the coordinates in `V` have been
visited: the output keeps the layout of the source, visited pixels carry their
threshold colour, the others are still those of the source, and the three
accumulators range over the bright pixels of `V`. -/
structure ScanInv (img : Image) (thr : Int) (V : Finset (ℕ × ℕ)) (s : Scan) : Prop where
  frame : SameFrame s.thr_image img
  bounds : ∀ p ∈ V, p.1 < img.width ∧ p.2 < img.height
  painted : ∀ p ∈ V, pixel s.thr_image p.1 p.2 = some (thresholdColor img thr p.1 p.2)
  others : ∀ x y, x < img.width → (x, y) ∉ V → pixel s.thr_image x y = pixel img x y
  count : s.cog_N = ((brightIn img thr V).card : Int)
  sum_x : s.cog_sum_x = ∑ p in brightIn img thr V, (p.1 : ℚ)
  sum_y : s.cog_sum_y = ∑ p in brightIn img thr V, (p.2 : ℚ)

/-- A 2 x 2 frame with one padding byte per row; pixels (0,0) and (1,1) are bright
at threshold 240. -/
def frame2x2 : Image :=
  { width := 2, height := 2, step := 7, encoding := Encoding.known 3 8,
    data := [250, 250, 250, 10, 20, 30, 9, 1, 2, 4, 255, 255, 254, 9],
    fits := by decide }

/-- The 4 x 4 frame of the spec's scenario: every channel of every pixel is 200. -/
def gray4x4 : Image :=
  { width := 4, height := 4, step := 12, encoding := Encoding.known 3 8,
    data := List.replicate 48 200,
    fits := ⟨by decide, by decide, by decide, by rw [List.length_replicate]; decide⟩ }

/-- A 1 x 1 three-channel frame whose buffer holds no byte. -/
def truncated1x1 : Image :=
  { width := 1, height := 1, step := 3, encoding := Encoding.known 3 8, data := [],
    fits := by decide }

/-- A one-channel frame of width 1 whose height field is `2^31`. -/
def tallMono : Image :=
  { width := 1, height := 2147483648, step := 1, encoding := Encoding.known 1 8, data := [],
    fits := by decide }

/-- A 2 x 2 frame of one channel per pixel. -/
def mono2x2 : Image :=
  { width := 2, height := 2, step := 2, encoding := Encoding.known 1 8,
    data := [1, 2, 3, 4], fits := by decide }

/-- A 2 x 2 frame without row padding; pixel (1, 0) is bright at threshold 240. -/
def packed2x2 : Image :=
  { width := 2, height := 2, step := 6, encoding := Encoding.known 3 8,
    data := [5, 6, 7, 255, 240, 250, 100, 100, 100, 0, 0, 0], fits := by decide }

/-- The 4 x 4 frame of the spec's second scenario: every channel is 200, except at
pixel `(3, 3)`, where it is 250. -/
def spot4x4 : Image :=
  { width := 4, height := 4, step := 12, encoding := Encoding.known 3 8,
    data := List.replicate 45 200 ++ [250, 250, 250],
    fits := by decide }

/-! ## Lemmas -/

/-- Below `2^31` the cast `(int)` keeps the value. -/
theorem toInt_of_lt {n : Nat} (h : n < 2147483648) : toInt n = (n : Int) := by
  unfold toInt
  have : n % 4294967296 = n := Nat.mod_eq_of_lt (by omega)
  rw [this, if_pos h]

/-- Every byte of an in-bounds pixel lies inside the buffer. -/
theorem byte_index_lt {w h step len x y k : Nat} (hs : 3 * w ≤ step) (hb : step * h ≤ len)
    (hx : x < w) (hy : y < h) (hk : k < 3) : step * y + 3 * x + k < len := by
  have h1 : step * (y + 1) ≤ step * h := Nat.mul_le_mul_left _ hy
  have h2 : step * (y + 1) = step * y + step := by ring
  omega

theorem WellFormed.width_lt {im : Image} (h : WellFormed im) : im.width < 2147483648 := by
  have := im.fits
  have := h.2.1
  omega

theorem WellFormed.height_lt {im : Image} (h : WellFormed im) (hw : 0 < im.width) :
    im.height < 2147483648 := by
  have hf := im.fits
  have hs := h.2.1
  have hb := h.2.2
  by_contra hc
  have h1 : 3 * 2147483648 ≤ im.step * im.height :=
    Nat.mul_le_mul (by omega) (by omega)
  omega

/-- On a well-formed image the 32-bit index expression does not wrap. -/
theorem offset_eq {im : Image} (h : WellFormed im) {x y k : Nat} (hx : x < im.width)
    (hy : y < im.height) (hk : k < 3) :
    offset im (x : Int) (y : Int) k = im.step * y + 3 * x + k := by
  have hlt := byte_index_lt h.2.1 h.2.2 hx hy hk
  have hf := im.fits
  unfold offset
  generalize hm : im.step * y = m at hlt ⊢
  have : ((im.step : Int) * (y : Int)) = (m : Int) := by rw [← hm]; push_cast; ring
  rw [this]
  omega

theorem SameFrame.wellFormed {a b : Image} (h : SameFrame a b) (hb : WellFormed b) :
    WellFormed a := by
  obtain ⟨h1, h2, h3, h4, h5⟩ := h
  unfold WellFormed
  rw [h1, h2, h3, h4, h5]
  exact hb

theorem SameFrame.trans_frame {a b c : Image} (h : SameFrame a b) (h1 : SameFrame b c) :
    SameFrame a c :=
  ⟨h.1.trans h1.1, h.2.1.trans h1.2.1, h.2.2.1.trans h1.2.2.1, h.2.2.2.1.trans h1.2.2.2.1,
    h.2.2.2.2.trans h1.2.2.2.2⟩

theorem assertSupportedImageType_ok {im : Image} (h : im.encoding = Encoding.known 3 8) :
    assertSupportedImageType im = .ok () := by
  simp [assertSupportedImageType, h, numChannels, bitDepth, bind, Except.bind, pure, Except.pure]

theorem assertCoordinateWithinRange_ok {im : Image} (h : WellFormed im) {x y : Nat}
    (hx : x < im.width) (hy : y < im.height) :
    assertCoordinateWithinRange im (x : Int) (y : Int) = .ok () := by
  have hw := toInt_of_lt h.width_lt
  have hh := toInt_of_lt (h.height_lt (by omega))
  unfold assertCoordinateWithinRange
  rw [hw, hh, if_neg (by omega), if_neg (by omega)]

/-- Distinct in-bounds pixels occupy disjoint bytes. -/
theorem index_inj {w step x y k x1 y1 k1 : Nat} (hs : 3 * w ≤ step) (hx : x < w)
    (hx1 : x1 < w) (hk : k < 3) (hk1 : k1 < 3)
    (he : step * y + 3 * x + k = step * y1 + 3 * x1 + k1) : x = x1 ∧ y = y1 ∧ k = k1 := by
  have hy : y = y1 := by
    rcases Nat.lt_trichotomy y y1 with hlt | heq | hgt
    · have h1 : step * (y + 1) ≤ step * y1 := Nat.mul_le_mul_left _ hlt
      have h2 : step * (y + 1) = step * y + step := by ring
      omega
    · exact heq
    · have h1 : step * (y1 + 1) ≤ step * y := Nat.mul_le_mul_left _ hgt
      have h2 : step * (y1 + 1) = step * y1 + step := by ring
      omega
  subst hy
  omega

theorem load_eq {im : Image} {i : Nat} (h : i < im.data.length) :
    load im i = .ok (im.data.get ⟨i, h⟩) := by
  unfold load
  rw [List.getElem?_eq_getElem h]
  rfl

/-- Reading an in-bounds pixel of a well-formed image returns the rounded mean of its bytes. -/
theorem getPixelBrightness_eq {im : Image} (h : WellFormed im) {x y : Nat}
    (hx : x < im.width) (hy : y < im.height) :
    ∃ a b c : Byte, pixel im x y = some (a, b, c) ∧
      getPixelBrightness im (x : Int) (y : Int) =
        .ok (cmath_round ((((a.val + b.val + c.val : Nat) : Int) : ℚ) / 3)) := by
  have h0 := byte_index_lt h.2.1 h.2.2 hx hy (show 0 < 3 by omega)
  have h1 := byte_index_lt h.2.1 h.2.2 hx hy (show 1 < 3 by omega)
  have h2 := byte_index_lt h.2.1 h.2.2 hx hy (show 2 < 3 by omega)
  refine ⟨im.data.get ⟨_, h0⟩, im.data.get ⟨_, h1⟩, im.data.get ⟨_, h2⟩, ?_, ?_⟩
  · simp only [pixel, channel, List.getElem?_eq_getElem h0, List.getElem?_eq_getElem h1,
      List.getElem?_eq_getElem h2]
    rfl
  · unfold getPixelBrightness
    rw [assertSupportedImageType_ok h.1, assertCoordinateWithinRange_ok h hx hy,
      offset_eq h hx hy (by omega), offset_eq h hx hy (by omega), offset_eq h hx hy (by omega)]
    simp only [bind, Except.bind, load_eq h0, load_eq h1, load_eq h2]
    rfl

theorem store_eq {im : Image} {i : Nat} (v : Int) (h : i < im.data.length) :
    ∃ im1, store im i v = .ok im1 ∧ im1.width = im.width ∧ im1.height = im.height ∧
      im1.step = im.step ∧ im1.encoding = im.encoding ∧ im1.data = im.data.set i (toByte v) := by
  unfold store
  rw [if_pos h]
  exact ⟨_, rfl, rfl, rfl, rfl, rfl, rfl⟩

/-- Writing an in-bounds pixel of a well-formed image returns, and replaces its three bytes. -/
theorem setPixelColor_eq {im : Image} (h : WellFormed im) {x y : Nat}
    (hx : x < im.width) (hy : y < im.height) (c1 c2 c3 : Int) :
    ∃ im1, setPixelColor im (x : Int) (y : Int) c1 c2 c3 = .ok im1 ∧ SameFrame im1 im ∧
      im1.data = ((im.data.set (im.step * y + 3 * x + 0) (toByte c1)).set
        (im.step * y + 3 * x + 1) (toByte c2)).set (im.step * y + 3 * x + 2) (toByte c3) := by
  have h0 := byte_index_lt h.2.1 h.2.2 hx hy (show 0 < 3 by omega)
  have h1 := byte_index_lt h.2.1 h.2.2 hx hy (show 1 < 3 by omega)
  have h2 := byte_index_lt h.2.1 h.2.2 hx hy (show 2 < 3 by omega)
  obtain ⟨a, ha, aw, ah, as, ae, ad⟩ := store_eq c1 h0
  have hfa : SameFrame a im := ⟨aw, ah, as, ae, by rw [ad, List.length_set]⟩
  have hwa := hfa.wellFormed h
  have h1a : a.step * y + 3 * x + 1 < a.data.length := by rw [as, hfa.2.2.2.2]; exact h1
  obtain ⟨b, hb, bw, bh, bs, be, bd⟩ := store_eq c2 h1a
  have hfb : SameFrame b im :=
    ⟨bw.trans aw, bh.trans ah, bs.trans as, be.trans ae, by
      rw [bd, List.length_set]; exact hfa.2.2.2.2⟩
  have hwb := hfb.wellFormed h
  have h2b : b.step * y + 3 * x + 2 < b.data.length := by rw [bs, as, hfb.2.2.2.2]; exact h2
  obtain ⟨c, hc, cw, ch, cs, ce, cd⟩ := store_eq c3 h2b
  refine ⟨c, ?_, ⟨cw.trans (bw.trans aw), ch.trans (bh.trans ah), cs.trans (bs.trans as),
    ce.trans (be.trans ae), by rw [cd, List.length_set]; exact hfb.2.2.2.2⟩, ?_⟩
  · unfold setPixelColor
    rw [assertSupportedImageType_ok h.1]
    simp only [bind, Except.bind, tryCatch, tryCatchThe, MonadExcept.tryCatch, Except.tryCatch,
      MonadExceptOf.tryCatch]
    rw [assertCoordinateWithinRange_ok h hx hy]
    simp only []
    rw [offset_eq h hx hy (by omega), ha]
    simp only []
    rw [offset_eq hwa (by rw [aw]; exact hx) (by rw [ah]; exact hy) (by omega), hb]
    simp only []
    rw [offset_eq hwb (by rw [hfb.1]; exact hx) (by rw [hfb.2.1]; exact hy) (by omega), hc]
  · rw [cd, bd, ad, bs, as]

/-- Reading a pixel of a buffer in which the three bytes of pixel `(x, y)` were replaced. -/
theorem pixel_set_same {im im1 : Image} (h : WellFormed im) {x y : Nat}
    (hx : x < im.width) (hy : y < im.height) (b1 b2 b3 : Byte) (hs : im1.step = im.step)
    (hd : im1.data = ((im.data.set (im.step * y + 3 * x + 0) b1).set
        (im.step * y + 3 * x + 1) b2).set (im.step * y + 3 * x + 2) b3) :
    pixel im1 x y = some (b1, b2, b3) := by
  have h0 := byte_index_lt h.2.1 h.2.2 hx hy (show 0 < 3 by omega)
  have h1 := byte_index_lt h.2.1 h.2.2 hx hy (show 1 < 3 by omega)
  have h2 := byte_index_lt h.2.1 h.2.2 hx hy (show 2 < 3 by omega)
  have h0' : im.step * y + 3 * x < im.data.length := h0
  simp only [pixel, channel, hs, hd, List.getElem?_set, List.length_set]
  simp [h0', h1, h2]

theorem pixel_set_other {im im1 : Image} (h : WellFormed im) {x y x1 y1 : Nat}
    (hx : x < im.width) (hx1 : x1 < im.width) (hne : ¬ (x1 = x ∧ y1 = y))
    (b1 b2 b3 : Byte) (hs : im1.step = im.step)
    (hd : im1.data = ((im.data.set (im.step * y + 3 * x + 0) b1).set
        (im.step * y + 3 * x + 1) b2).set (im.step * y + 3 * x + 2) b3) :
    pixel im1 x1 y1 = pixel im x1 y1 := by
  have key : ∀ k k1, k < 3 → k1 < 3 →
      im.step * y + 3 * x + k ≠ im.step * y1 + 3 * x1 + k1 := by
    intro k k1 hk hk1 he
    obtain ⟨e1, e2, _⟩ := index_inj h.2.1 hx hx1 hk hk1 he
    exact hne ⟨e1.symm, e2.symm⟩
  have get : ∀ k1, k1 < 3 → im1.data[im.step * y1 + 3 * x1 + k1]? =
      im.data[im.step * y1 + 3 * x1 + k1]? := by
    intro k1 hk1
    rw [hd, List.getElem?_set_ne (key 2 k1 (by omega) hk1),
      List.getElem?_set_ne (key 1 k1 (by omega) hk1),
      List.getElem?_set_ne (key 0 k1 (by omega) hk1)]
  simp only [pixel, channel, hs, get 0 (by omega), get 1 (by omega), get 2 (by omega)]

theorem brightIn_insert_pos {img : Image} {thr : Int} {V : Finset (ℕ × ℕ)} {p : ℕ × ℕ}
    (h : isBright img thr p.1 p.2 = true) :
    brightIn img thr (insert p V) = insert p (brightIn img thr V) := by
  unfold brightIn
  rw [Finset.filter_insert, if_pos h]

theorem brightIn_insert_neg {img : Image} {thr : Int} {V : Finset (ℕ × ℕ)} {p : ℕ × ℕ}
    (h : ¬ isBright img thr p.1 p.2 = true) :
    brightIn img thr (insert p V) = brightIn img thr V := by
  unfold brightIn
  rw [Finset.filter_insert, if_neg h]

theorem not_mem_brightIn {img : Image} {thr : Int} {V : Finset (ℕ × ℕ)} {p : ℕ × ℕ}
    (h : p ∉ V) : p ∉ brightIn img thr V := fun hp => h (Finset.mem_of_mem_filter p hp)

/-- One iteration of the inner loop extends the invariant by the visited coordinate. -/
theorem scanPixel_inv {img : Image} (hw : WellFormed img) (thr : Int) {V : Finset (ℕ × ℕ)}
    {s : Scan} (hi : ScanInv img thr V s) {x y : Nat} (hx : x < img.width)
    (hy : y < img.height) (hn : (x, y) ∉ V) :
    ∃ s1, scanPixel img thr (y : Int) s (x : Int) = .ok s1 ∧
      ScanInv img thr (insert (x, y) V) s1 := by
  obtain ⟨a, b, c, -, hb⟩ := getPixelBrightness_eq hw hx hy
  have hwt : WellFormed s.thr_image := hi.frame.wellFormed hw
  have hxt : x < s.thr_image.width := by rw [hi.frame.1]; exact hx
  have hyt : y < s.thr_image.height := by rw [hi.frame.2.1]; exact hy
  have hbounds : ∀ p ∈ insert (x, y) V, p.1 < img.width ∧ p.2 < img.height := by
    intro p hp
    rcases Finset.mem_insert.mp hp with rfl | hp
    · exact ⟨hx, hy⟩
    · exact hi.bounds p hp
  have hpaint : ∀ (t : Image) (v : Int), SameFrame t s.thr_image →
      t.data = ((s.thr_image.data.set (s.thr_image.step * y + 3 * x + 0) (toByte v)).set
        (s.thr_image.step * y + 3 * x + 1) (toByte v)).set
        (s.thr_image.step * y + 3 * x + 2) (toByte v) →
      thresholdColor img thr x y = (toByte v, toByte v, toByte v) →
      (∀ p ∈ insert (x, y) V, pixel t p.1 p.2 = some (thresholdColor img thr p.1 p.2)) ∧
      (∀ x1 y1, x1 < img.width → (x1, y1) ∉ insert (x, y) V →
        pixel t x1 y1 = pixel img x1 y1) := by
    intro t v ht hd hc
    constructor
    · intro p hp
      rcases Finset.mem_insert.mp hp with rfl | hp
      · rw [hc]
        exact pixel_set_same hwt hxt hyt _ _ _ ht.2.2.1 hd
      · have hne : ¬ (p.1 = x ∧ p.2 = y) := by
          rintro ⟨e1, e2⟩
          exact hn (by rw [← e1, ← e2]; exact hp)
        rw [pixel_set_other hwt hxt (by rw [hi.frame.1]; exact (hi.bounds p hp).1) hne
          _ _ _ ht.2.2.1 hd]
        exact hi.painted p hp
    · intro x1 y1 hx1 hp
      have hne : ¬ (x1 = x ∧ y1 = y) := by
        rintro ⟨e1, e2⟩
        exact hp (by rw [e1, e2]; exact Finset.mem_insert_self _ _)
      rw [pixel_set_other hwt hxt (by rw [hi.frame.1]; exact hx1) hne _ _ _ ht.2.2.1 hd]
      exact hi.others x1 y1 hx1 (fun hm => hp (Finset.mem_insert_of_mem hm))
  have hnb : (x, y) ∉ brightIn img thr V := not_mem_brightIn hn
  unfold scanPixel
  rw [hb]
  simp only [bind, Except.bind]
  by_cases hthr : cmath_round ((((a.val + b.val + c.val : Nat) : Int) : ℚ) / 3) ≥ thr
  · have hbr : isBright img thr x y = true := by
      unfold isBright; rw [hb]; exact decide_eq_true hthr
    obtain ⟨t, ht, hft, hd⟩ := setPixelColor_eq hwt hxt hyt 255 255 255
    rw [if_pos hthr, ht]
    have hp := hpaint t 255 hft hd (by unfold thresholdColor; rw [if_pos hbr]; rfl)
    refine ⟨_, rfl, hft.trans_frame hi.frame, hbounds, hp.1, hp.2, ?_, ?_, ?_⟩
    · show s.cog_N + 1 = _
      rw [brightIn_insert_pos (p := (x, y)) hbr, Finset.card_insert_of_not_mem hnb, hi.count]
      push_cast; ring
    · show s.cog_sum_x + ((x : Int) : ℚ) = _
      rw [brightIn_insert_pos (p := (x, y)) hbr, Finset.sum_insert (f := _) hnb, hi.sum_x]
      push_cast; ring
    · show s.cog_sum_y + ((y : Int) : ℚ) = _
      rw [brightIn_insert_pos (p := (x, y)) hbr, Finset.sum_insert (f := _) hnb, hi.sum_y]
      push_cast; ring
  · have hbr : ¬ isBright img thr x y = true := by
      unfold isBright; rw [hb]; simpa using hthr
    obtain ⟨t, ht, hft, hd⟩ := setPixelColor_eq hwt hxt hyt 0 0 0
    rw [if_neg hthr, ht]
    have hp := hpaint t 0 hft hd (by unfold thresholdColor; rw [if_neg hbr]; rfl)
    refine ⟨_, rfl, hft.trans_frame hi.frame, hbounds, hp.1, hp.2, ?_, ?_, ?_⟩
    · show s.cog_N = _
      rw [brightIn_insert_neg (p := (x, y)) hbr, hi.count]
    · show s.cog_sum_x = _
      rw [brightIn_insert_neg (p := (x, y)) hbr, hi.sum_x]
    · show s.cog_sum_y = _
      rw [brightIn_insert_neg (p := (x, y)) hbr, hi.sum_y]

theorem intRange_zero (n : Nat) :
    intRange 0 ((n : Int) - 1) = (List.range n).map (fun i : Nat => (i : Int)) := by
  unfold intRange
  have : ((n : Int) - 1 + 1 - 0).toNat = n := by omega
  rw [this]
  apply List.map_congr_left
  intro i _
  exact Int.zero_add _

theorem toFinset_range (n : Nat) : (List.range n).toFinset = Finset.range n := by
  ext a
  simp

theorem intRange_neg {hi : Int} (h : hi < 0) : intRange 0 hi = [] := by
  unfold intRange
  have : (hi + 1 - 0).toNat = 0 := by omega
  rw [this]
  rfl

theorem foldlM_row {img : Image} (hw : WellFormed img) (thr : Int) {y : Nat}
    (hy : y < img.height) (xs : List Nat) :
    ∀ (V : Finset (ℕ × ℕ)) (s : Scan), ScanInv img thr V s → xs.Nodup →
      (∀ x ∈ xs, x < img.width ∧ (x, y) ∉ V) →
      ∃ s1, (xs.map (fun i : Nat => (i : Int))).foldlM (scanPixel img thr (y : Int)) s = .ok s1 ∧
        ScanInv img thr (V ∪ xs.toFinset.image (fun x => (x, y))) s1 := by
  induction xs with
  | nil =>
    intro V s hi _ _
    exact ⟨s, rfl, by simpa using hi⟩
  | cons x xs ih =>
    intro V s hi hnd hxs
    obtain ⟨hx, hxV⟩ := hxs x (List.mem_cons_self _ _)
    obtain ⟨s1, hs1, hi1⟩ := scanPixel_inv hw thr hi hx hy hxV
    have hnd' := List.nodup_cons.mp hnd
    obtain ⟨s2, hs2, hi2⟩ := ih (insert (x, y) V) s1 hi1 hnd'.2 (by
      intro x1 hx1
      refine ⟨(hxs x1 (List.mem_cons_of_mem _ hx1)).1, ?_⟩
      intro hm
      rcases Finset.mem_insert.mp hm with he | hm
      · have : x1 = x := (Prod.mk.inj he).1
        exact hnd'.1 (this ▸ hx1)
      · exact (hxs x1 (List.mem_cons_of_mem _ hx1)).2 hm)
    refine ⟨s2, ?_, ?_⟩
    · rw [List.map_cons, List.foldlM_cons, hs1]
      exact hs2
    · have : V ∪ (x :: xs).toFinset.image (fun x => (x, y)) =
          insert (x, y) V ∪ xs.toFinset.image (fun x => (x, y)) := by
        rw [List.toFinset_cons, Finset.image_insert, Finset.insert_union, Finset.union_insert]
      rw [this]
      exact hi2

theorem scanRow_inv {img : Image} (hw : WellFormed img) (thr : Int) {y : Nat}
    (hy : y < img.height) {V : Finset (ℕ × ℕ)} {s : Scan} (hi : ScanInv img thr V s)
    (hV : ∀ x, (x, y) ∉ V) :
    ∃ s1, scanRow img thr s (y : Int) = .ok s1 ∧
      ScanInv img thr (V ∪ (Finset.range img.width).image (fun x => (x, y))) s1 := by
  unfold scanRow getImageWidth
  rw [toInt_of_lt hw.width_lt, intRange_zero]
  have := foldlM_row hw thr hy (List.range img.width) V s hi (List.nodup_range _)
    (fun x hx => ⟨List.mem_range.mp hx, hV x⟩)
  rwa [toFinset_range] at this

theorem foldlM_rows {img : Image} (hw : WellFormed img) (thr : Int) (ys : List Nat) :
    ∀ (V : Finset (ℕ × ℕ)) (s : Scan), ScanInv img thr V s → ys.Nodup →
      (∀ y ∈ ys, y < img.height ∧ ∀ x, (x, y) ∉ V) →
      ∃ s1, (ys.map (fun i : Nat => (i : Int))).foldlM (scanRow img thr) s = .ok s1 ∧
        ScanInv img thr (V ∪ Finset.range img.width ×ˢ ys.toFinset) s1 := by
  induction ys with
  | nil =>
    intro V s hi _ _
    exact ⟨s, rfl, by simpa using hi⟩
  | cons y ys ih =>
    intro V s hi hnd hys
    obtain ⟨hy, hyV⟩ := hys y (List.mem_cons_self _ _)
    obtain ⟨s1, hs1, hi1⟩ := scanRow_inv hw thr hy hi hyV
    have hnd' := List.nodup_cons.mp hnd
    obtain ⟨s2, hs2, hi2⟩ := ih _ s1 hi1 hnd'.2 (by
      intro y1 hy1
      refine ⟨(hys y1 (List.mem_cons_of_mem _ hy1)).1, ?_⟩
      intro x hm
      rcases Finset.mem_union.mp hm with hm | hm
      · exact (hys y1 (List.mem_cons_of_mem _ hy1)).2 x hm
      · obtain ⟨x0, -, he⟩ := Finset.mem_image.mp hm
        have : y = y1 := (Prod.mk.inj he).2
        exact hnd'.1 (this ▸ hy1))
    refine ⟨s2, ?_, ?_⟩
    · rw [List.map_cons, List.foldlM_cons, hs1]
      exact hs2
    · have : V ∪ Finset.range img.width ×ˢ (y :: ys).toFinset =
          V ∪ (Finset.range img.width).image (fun x => (x, y)) ∪
            Finset.range img.width ×ˢ ys.toFinset := by
        ext ⟨a, b⟩
        simp only [Finset.mem_union, Finset.mem_product, Finset.mem_range, List.toFinset_cons,
          Finset.mem_insert, List.mem_toFinset, Finset.mem_image, Prod.mk.injEq]
        constructor
        · rintro (h | ⟨h1, rfl | h2⟩)
          · exact Or.inl (Or.inl h)
          · exact Or.inl (Or.inr ⟨a, h1, rfl, rfl⟩)
          · exact Or.inr ⟨h1, h2⟩
        · rintro ((h | ⟨a1, h1, rfl, rfl⟩) | ⟨h1, h2⟩)
          · exact Or.inl h
          · exact Or.inr ⟨h1, Or.inl rfl⟩
          · exact Or.inr ⟨h1, Or.inr h2⟩
      rw [this]
      exact hi2

theorem scanInv_init (img : Image) (thr : Int) :
    ScanInv img thr ∅
      { thr_image := copyImageProperties Image.new img, cog_sum_x := 0, cog_sum_y := 0,
        cog_N := 0 } where
  frame := ⟨rfl, rfl, rfl, rfl, rfl⟩
  bounds := by simp
  painted := by simp
  others := by intros; rfl
  count := by simp [brightIn]
  sum_x := by simp [brightIn]
  sum_y := by simp [brightIn]

theorem foldlM_skip (img : Image) (thr : Int) (hw : img.width = 0) (ys : List Int) (s : Scan) :
    ys.foldlM (scanRow img thr) s = .ok s := by
  induction ys with
  | nil => rfl
  | cons y ys ih =>
    rw [List.foldlM_cons]
    have : scanRow img thr s y = .ok s := by
      unfold scanRow getImageWidth
      rw [hw, intRange_neg (by decide)]
      rfl
    rw [this]
    exact ih

/-- The scan returns, and the invariant holds for the whole grid. -/
theorem scanLoop_inv {img : Image} (hw : WellFormed img) (thr : Int) :
    ∃ s, scanLoop img thr = .ok s ∧ ScanInv img thr (grid img) s := by
  unfold scanLoop
  rcases Nat.eq_zero_or_pos img.width with h0 | hpos
  · refine ⟨_, foldlM_skip img thr h0 _ _, ?_⟩
    have : grid img = ∅ := by unfold grid; rw [h0]; simp
    rw [this]
    exact scanInv_init img thr
  · unfold getImageHeight
    rw [toInt_of_lt (hw.height_lt hpos), intRange_zero]
    have := foldlM_rows hw thr (List.range img.height) ∅ _ (scanInv_init img thr)
      (List.nodup_range _) (fun y hy => ⟨List.mem_range.mp hy, fun x => by simp⟩)
    rwa [toFinset_range, Finset.empty_union] at this

theorem toInt_pred_lt {n : Nat} (h : n < 2147483648) :
    toInt (n + 4294967295) = (n : Int) - 1 := by
  unfold toInt
  rcases Nat.eq_zero_or_pos n with h0 | hpos
  · subst h0; decide
  · have : (n + 4294967295) % 4294967296 = n - 1 := by omega
    rw [this, if_pos (by omega)]
    omega

theorem mem_intRange {lo hi v : Int} : v ∈ intRange lo hi ↔ lo ≤ v ∧ v ≤ hi := by
  unfold intRange
  simp only [List.mem_map, List.mem_range]
  constructor
  · rintro ⟨i, hi1, rfl⟩
    omega
  · rintro ⟨h1, h2⟩
    exact ⟨(v - lo).toNat, by omega, by omega⟩

/-- Painting one column segment: the inner loop of `DrawBigPixel`. -/
theorem foldlM_paint_column {a : Nat} (c1 c2 c3 : Int) (ys : List Int) :
    ∀ im : Image, WellFormed im → a < im.width →
      (∀ v ∈ ys, 0 ≤ v ∧ v < (im.height : Int)) →
      ∃ im1, ys.foldlM (fun im yy => setPixelColor im (a : Int) yy c1 c2 c3) im = .ok im1 ∧
        SameFrame im1 im ∧
        ∀ px py : Nat, px < im.width →
          pixel im1 px py = if px = a ∧ (py : Int) ∈ ys then
            some (toByte c1, toByte c2, toByte c3) else pixel im px py := by
  induction ys with
  | nil =>
    intro im _ _ _
    exact ⟨im, rfl, ⟨rfl, rfl, rfl, rfl, rfl⟩, by simp⟩
  | cons v ys ih =>
    intro im hw ha hys
    obtain ⟨hv0, hvh⟩ := hys v (List.mem_cons_self _ _)
    obtain ⟨n, rfl⟩ := Int.eq_ofNat_of_zero_le hv0
    have hn : n < im.height := by exact_mod_cast hvh
    obtain ⟨t, ht, hft, hd⟩ := setPixelColor_eq hw ha hn c1 c2 c3
    have hwt := hft.wellFormed hw
    obtain ⟨im1, h1, hf1, hp1⟩ := ih t hwt (by rw [hft.1]; exact ha) (by
      intro u hu
      rw [hft.2.1]
      exact hys u (List.mem_cons_of_mem _ hu))
    refine ⟨im1, ?_, hf1.trans_frame hft, ?_⟩
    · rw [List.foldlM_cons, ht]
      exact h1
    · intro px py hpx
      rw [hp1 px py (by rw [hft.1]; exact hpx)]
      by_cases hin : px = a ∧ (py : Int) ∈ ys
      · rw [if_pos hin, if_pos ⟨hin.1, List.mem_cons_of_mem _ hin.2⟩]
      · rw [if_neg hin]
        by_cases he : px = a ∧ py = n
        · obtain ⟨rfl, rfl⟩ := he
          rw [if_pos ⟨rfl, List.mem_cons_self _ _⟩]
          exact pixel_set_same hw ha hn _ _ _ hft.2.2.1 hd
        · have hnot : ¬ (px = a ∧ (py : Int) ∈ (n : Int) :: ys) := by
            rintro ⟨e1, e2⟩
            rcases List.mem_cons.mp e2 with e3 | e3
            · exact he ⟨e1, by exact_mod_cast e3⟩
            · exact hin ⟨e1, e3⟩
          rw [if_neg hnot]
          exact pixel_set_other hw ha hpx he _ _ _ hft.2.2.1 hd

/-- Painting a rectangle column by column: the two loops of `DrawBigPixel`. -/
theorem foldlM_paint_rect (c1 c2 c3 : Int) (ys : Image → List Int) (xs : List Int) :
    ∀ im : Image, WellFormed im →
      (∀ t, SameFrame t im → ys t = ys im) →
      (∀ v ∈ xs, 0 ≤ v ∧ v < (im.width : Int)) →
      (∀ v ∈ ys im, 0 ≤ v ∧ v < (im.height : Int)) →
      ∃ im1, xs.foldlM (fun im xx =>
          (ys im).foldlM (fun im yy => setPixelColor im xx yy c1 c2 c3) im) im = .ok im1 ∧
        SameFrame im1 im ∧
        ∀ px py : Nat, px < im.width →
          pixel im1 px py = if (px : Int) ∈ xs ∧ (py : Int) ∈ ys im then
            some (toByte c1, toByte c2, toByte c3) else pixel im px py := by
  induction xs with
  | nil =>
    intro im _ _ _ _
    exact ⟨im, rfl, ⟨rfl, rfl, rfl, rfl, rfl⟩, by simp⟩
  | cons v xs ih =>
    intro im hw hys hxs hyb
    obtain ⟨hv0, hvw⟩ := hxs v (List.mem_cons_self _ _)
    obtain ⟨a, rfl⟩ := Int.eq_ofNat_of_zero_le hv0
    have ha : a < im.width := by exact_mod_cast hvw
    obtain ⟨t, ht, hft, hpt⟩ := foldlM_paint_column c1 c2 c3 (ys im) im hw ha hyb
    have hwt := hft.wellFormed hw
    have hyt : ys t = ys im := hys t hft
    obtain ⟨im1, h1, hf1, hp1⟩ := ih t hwt
      (fun u hu => (hys u (hu.trans_frame hft)).trans hyt.symm)
      (by intro u hu; rw [hft.1]; exact hxs u (List.mem_cons_of_mem _ hu))
      (by intro u hu; rw [hft.2.1]; rw [hyt] at hu; exact hyb u hu)
    refine ⟨im1, ?_, hf1.trans_frame hft, ?_⟩
    · rw [List.foldlM_cons, ht]
      exact h1
    · intro px py hpx
      rw [hp1 px py (by rw [hft.1]; exact hpx), hyt, hpt px py hpx]
      by_cases hy : (py : Int) ∈ ys im
      · by_cases h1 : (px : Int) ∈ xs
        · rw [if_pos ⟨h1, hy⟩, if_pos ⟨List.mem_cons_of_mem _ h1, hy⟩]
        · by_cases h2 : px = a
          · rw [if_neg (fun h => h1 h.1), if_pos ⟨h2, hy⟩,
              if_pos ⟨by rw [h2]; exact List.mem_cons_self _ _, hy⟩]
          · have : ¬ ((px : Int) ∈ (a : Int) :: xs ∧ (py : Int) ∈ ys im) := by
              rintro ⟨e, -⟩
              rcases List.mem_cons.mp e with e | e
              · exact h2 (by exact_mod_cast e)
              · exact h1 e
            rw [if_neg (fun h => h1 h.1), if_neg (fun h => h2 h.1), if_neg this]
      · rw [if_neg (fun h => hy h.2), if_neg (fun h => hy h.2), if_neg (fun h => hy h.2)]

theorem toInt_pred_lt_self {n : Nat} (h : n < 4294967296) :
    toInt (n + 4294967295) < (n : Int) := by
  unfold toInt
  split <;> omega

/-- What `DrawBigPixel` does to a well-formed image, for any centre and size. -/
theorem DrawBigPixel_eq {img : Image} (hw : WellFormed img) (x y c1 c2 c3 size : Int) :
    ∃ im1, DrawBigPixel img x y c1 c2 c3 size = .ok im1 ∧ SameFrame im1 img ∧
      ∀ px py : Nat, px < img.width → py < img.height →
        pixel im1 px py =
          if (x - Int.tdiv (size - 1) 2 ≤ px ∧ (px : Int) ≤ x + Int.tdiv (size - 1) 2) ∧
              (y - Int.tdiv (size - 1) 2 ≤ py ∧ (py : Int) ≤ y + Int.tdiv (size - 1) 2) then
            some (toByte c1, toByte c2, toByte c3)
          else pixel img px py := by
  have hf := img.fits
  obtain ⟨im1, h1, hf1, hp1⟩ := foldlM_paint_rect c1 c2 c3
    (fun im => intRange (MAX_INT 0 (y - Int.tdiv (size - 1) 2))
      (MIN_INT (toInt (im.height + 4294967295)) (y + Int.tdiv (size - 1) 2)))
    (intRange (MAX_INT 0 (x - Int.tdiv (size - 1) 2))
      (MIN_INT (toInt (img.width + 4294967295)) (x + Int.tdiv (size - 1) 2)))
    img hw
    (by intro t ht; simp only [ht.2.1])
    (by
      intro v hv
      have := toInt_pred_lt_self hf.1
      rw [mem_intRange] at hv
      unfold MAX_INT MIN_INT at hv
      split at hv <;> split at hv <;> omega)
    (by
      intro v hv
      have := toInt_pred_lt_self hf.2.1
      rw [mem_intRange] at hv
      unfold MAX_INT MIN_INT at hv
      split at hv <;> split at hv <;> omega)
  refine ⟨im1, h1, hf1, ?_⟩
  intro px py hpx hpy
  rw [hp1 px py hpx]
  have e1 := toInt_pred_lt hw.width_lt
  have e2 := toInt_pred_lt (hw.height_lt (by omega))
  have hiff : ((px : Int) ∈ intRange (MAX_INT 0 (x - Int.tdiv (size - 1) 2))
        (MIN_INT (toInt (img.width + 4294967295)) (x + Int.tdiv (size - 1) 2)) ∧
      (py : Int) ∈ intRange (MAX_INT 0 (y - Int.tdiv (size - 1) 2))
        (MIN_INT (toInt (img.height + 4294967295)) (y + Int.tdiv (size - 1) 2))) ↔
      ((x - Int.tdiv (size - 1) 2 ≤ px ∧ (px : Int) ≤ x + Int.tdiv (size - 1) 2) ∧
        (y - Int.tdiv (size - 1) 2 ≤ py ∧ (py : Int) ≤ y + Int.tdiv (size - 1) 2)) := by
    rw [mem_intRange, mem_intRange, e1, e2]
    unfold MAX_INT MIN_INT
    generalize Int.tdiv (size - 1) 2 = half
    constructor
    · rintro ⟨⟨a1, a2⟩, b1, b2⟩
      split at a1 <;> split at a2 <;> split at b1 <;> split at b2 <;> omega
    · rintro ⟨⟨a1, a2⟩, b1, b2⟩
      refine ⟨⟨?_, ?_⟩, ?_, ?_⟩ <;> split <;> omega
  by_cases hc : (x - Int.tdiv (size - 1) 2 ≤ px ∧ (px : Int) ≤ x + Int.tdiv (size - 1) 2) ∧
      (y - Int.tdiv (size - 1) 2 ≤ py ∧ (py : Int) ≤ y + Int.tdiv (size - 1) 2)
  · rw [if_pos hc, if_pos (hiff.mpr hc)]
  · rw [if_neg hc, if_neg (fun h => hc (hiff.mp h))]

theorem mem_brightPixels {img : Image} {thr : Int} {x y : Nat} :
    (x, y) ∈ brightPixels img thr ↔
      x < img.width ∧ y < img.height ∧
        ∃ b, getPixelBrightness img (x : Int) (y : Int) = .ok b ∧ b ≥ thr := by
  unfold brightPixels brightIn grid isBright
  simp only [Finset.mem_filter, Finset.mem_product, Finset.mem_range]
  constructor
  · rintro ⟨⟨hx, hy⟩, hb⟩
    refine ⟨hx, hy, ?_⟩
    split at hb
    · next b hb1 => exact ⟨b, hb1, of_decide_eq_true hb⟩
    · exact absurd hb (by decide)
  · rintro ⟨hx, hy, b, hb, hge⟩
    refine ⟨⟨hx, hy⟩, ?_⟩
    rw [hb]
    exact decide_eq_true hge

theorem cmath_round_of_nonneg {q : ℚ} (h : 0 ≤ q) : cmath_round q = ⌊q + 1 / 2⌋ := by
  unfold cmath_round
  rw [if_pos h]

/-- Rounding a third of a natural number. -/
theorem cmath_round_div_three (s : Nat) :
    cmath_round ((((s : Nat) : Int) : ℚ) / 3) = (((s + 1) / 3 : Nat) : Int) := by
  rw [cmath_round_of_nonneg (by positivity), Int.floor_eq_iff]
  have h1 : 3 * ((s + 1) / 3) ≤ s + 1 := Nat.mul_div_le _ _
  have h2 : s + 1 < 3 * ((s + 1) / 3) + 3 := by omega
  generalize (s + 1) / 3 = z at h1 h2
  have h1q : (3 : ℚ) * (z : ℚ) ≤ (s : ℚ) + 1 := by exact_mod_cast h1
  have h2q : (s : ℚ) + 1 + 1 ≤ 3 * (z : ℚ) + 3 := by exact_mod_cast h2
  simp only [Int.cast_natCast]
  constructor <;> linarith

theorem getPixelBrightness_bytes {im : Image} {x y b : Int}
    (h : getPixelBrightness im x y = .ok b) :
    ∃ a1 a2 a3 : Byte, b = (((a1.val + a2.val + a3.val + 1) / 3 : Nat) : Int) := by
  unfold getPixelBrightness at h
  simp only [bind, Except.bind, pure, Except.pure] at h
  split at h
  · exact absurd h (by simp)
  · split at h
    · exact absurd h (by simp)
    · split at h
      · exact absurd h (by simp)
      · next a1 _ =>
        split at h
        · exact absurd h (by simp)
        · next a2 _ =>
          split at h
          · exact absurd h (by simp)
          · next a3 _ =>
            refine ⟨a1, a2, a3, ?_⟩
            rw [cmath_round_div_three] at h
            exact (Except.ok.inj h).symm

/-- Whatever `getPixelBrightness` returns lies in `0..255`. -/
theorem getPixelBrightness_range {im : Image} {x y b : Int}
    (h : getPixelBrightness im x y = .ok b) : 0 ≤ b ∧ b ≤ 255 := by
  obtain ⟨a1, a2, a3, rfl⟩ := getPixelBrightness_bytes h
  have h1 := a1.isLt
  have h2 := a2.isLt
  have h3 := a3.isLt
  omega

theorem topic_callback_image_eq {img : Image} {thr : Int} {s : Scan}
    (hs : scanLoop img thr = .ok s) : topic_callback_image img thr = finishFrame s := by
  unfold topic_callback_image
  rw [hs]
  rfl

theorem finishFrame_zero {s : Scan} (h : s.cog_N = 0) :
    finishFrame s = .ok (Published.mk 0 0 s.thr_image) := by
  unfold finishFrame
  rw [if_neg (by simp [h])]
  rfl

theorem finishFrame_pos {s : Scan} (hw : WellFormed s.thr_image) (h : s.cog_N ≠ 0) :
    ∃ t, finishFrame s = .ok (Published.mk (cmath_round (s.cog_sum_x / (s.cog_N : ℚ)))
          (cmath_round (s.cog_sum_y / (s.cog_N : ℚ))) t) ∧
      SameFrame t s.thr_image ∧
      ∀ px py : Nat, px < s.thr_image.width → py < s.thr_image.height →
        pixel t px py =
          if (cmath_round (s.cog_sum_x / (s.cog_N : ℚ)) - 2 ≤ px ∧
                (px : Int) ≤ cmath_round (s.cog_sum_x / (s.cog_N : ℚ)) + 2) ∧
              (cmath_round (s.cog_sum_y / (s.cog_N : ℚ)) - 2 ≤ py ∧
                (py : Int) ≤ cmath_round (s.cog_sum_y / (s.cog_N : ℚ)) + 2) then
            some (255, 0, 0)
          else pixel s.thr_image px py := by
  obtain ⟨t, ht, hft, hp⟩ := DrawBigPixel_eq hw (cmath_round (s.cog_sum_x / (s.cog_N : ℚ)))
    (cmath_round (s.cog_sum_y / (s.cog_N : ℚ))) 255 0 0 5
  refine ⟨t, ?_, hft, hp⟩
  unfold finishFrame
  rw [if_pos h]
  simp only [bind, Except.bind, ht]
  rfl

theorem mem_grid {img : Image} {x y : Nat} (hx : x < img.width) (hy : y < img.height) :
    (x, y) ∈ grid img :=
  Finset.mem_product.mpr ⟨Finset.mem_range.mpr hx, Finset.mem_range.mpr hy⟩

theorem isBright_eq_false {img : Image} {thr : Int} {x y : Nat}
    (h : ∀ b, getPixelBrightness img (x : Int) (y : Int) = .ok b → b < thr) :
    isBright img thr x y = false := by
  unfold isBright
  split
  · next b hb => exact decide_eq_false (not_le.mpr (h b hb))
  · rfl

theorem isBright_eq_true {img : Image} (hw : WellFormed img) {thr : Int} {x y : Nat}
    (hx : x < img.width) (hy : y < img.height)
    (h : ∀ b, getPixelBrightness img (x : Int) (y : Int) = .ok b → b ≥ thr) :
    isBright img thr x y = true := by
  obtain ⟨a, b, c, -, hb⟩ := getPixelBrightness_eq hw hx hy
  unfold isBright
  rw [hb]
  exact decide_eq_true (h _ hb)

theorem of_isBright_eq_false {img : Image} {thr : Int} {x y : Nat}
    (h : isBright img thr x y = false) :
    ∀ b, getPixelBrightness img (x : Int) (y : Int) = .ok b → b < thr := by
  intro b hb
  unfold isBright at h
  rw [hb] at h
  exact not_le.mp (of_decide_eq_false h)

theorem of_isBright_eq_true {img : Image} {thr : Int} {x y : Nat}
    (h : isBright img thr x y = true) :
    ∀ b, getPixelBrightness img (x : Int) (y : Int) = .ok b → b ≥ thr := by
  intro b hb
  unfold isBright at h
  rw [hb] at h
  exact of_decide_eq_true h

/-- On a supported image a write outside the canvas fails with `out_of_range`. -/
theorem setPixelColor_outside {im : Image} (hs : im.encoding = Encoding.known 3 8) {x y : Int}
    (hout : ¬ (0 ≤ x ∧ x < toInt im.width ∧ 0 ≤ y ∧ y < toInt im.height))
    (c1 c2 c3 : Int) : setPixelColor im x y c1 c2 c3 = .error .out_of_range := by
  have hc : assertCoordinateWithinRange im x y = .error .out_of_range := by
    unfold assertCoordinateWithinRange
    by_cases h1 : x < 0 ∨ x ≥ toInt im.width
    · rw [if_pos h1]
    · rw [if_neg h1, if_pos (by omega)]
  unfold setPixelColor
  rw [assertSupportedImageType_ok hs]
  simp only [bind, Except.bind, tryCatch, tryCatchThe, MonadExcept.tryCatch, Except.tryCatch,
    MonadExceptOf.tryCatch, hc]
  rfl

theorem pixel_eq_some {im : Image} {x y : Nat} {a b c : Byte} :
    pixel im x y = some (a, b, c) ↔
      channel im x y 0 = some a ∧ channel im x y 1 = some b ∧ channel im x y 2 = some c := by
  unfold pixel
  cases channel im x y 0 <;> cases channel im x y 1 <;> cases channel im x y 2 <;> simp

theorem toByte_val {c : Int} (h0 : 0 ≤ c) (h1 : c ≤ 255) : (((toByte c).val : Nat) : Int) = c := by
  unfold toByte
  simp only []
  omega

theorem assertSupportedImageType_error {im : Image} (h : im.encoding ≠ Encoding.known 3 8) :
    assertSupportedImageType im = .error .runtime_error := by
  unfold assertSupportedImageType
  cases he : im.encoding with
  | unknown => rfl
  | known c d =>
    simp only [numChannels, bitDepth, bind, Except.bind]
    by_cases hc : c = 3
    · by_cases hd : d = 8
      · exact absurd (by rw [he, hc, hd]) h
      · subst hc
        simp [hd, throw, throwThe, MonadExceptOf.throw, pure, Except.pure, Except.bind]
    · simp [hc, throw, throwThe, MonadExceptOf.throw, pure, Except.pure, Except.bind]

theorem getPixelBrightness_unsupported {im : Image} (h : im.encoding ≠ Encoding.known 3 8)
    (x y : Int) : getPixelBrightness im x y = .error .runtime_error := by
  unfold getPixelBrightness
  rw [assertSupportedImageType_error h]
  rfl

theorem setPixelColor_unsupported {im : Image} (h : im.encoding ≠ Encoding.known 3 8)
    (x y c1 c2 c3 : Int) : setPixelColor im x y c1 c2 c3 = .error .runtime_error := by
  unfold setPixelColor
  rw [assertSupportedImageType_error h]
  rfl

theorem getPixelBrightness_outside {im : Image} (hs : im.encoding = Encoding.known 3 8)
    {x y : Int} (hout : ¬ (0 ≤ x ∧ x < toInt im.width ∧ 0 ≤ y ∧ y < toInt im.height)) :
    getPixelBrightness im x y = .error .out_of_range := by
  have hc : assertCoordinateWithinRange im x y = .error .out_of_range := by
    unfold assertCoordinateWithinRange
    by_cases h1 : x < 0 ∨ x ≥ toInt im.width
    · rw [if_pos h1]
    · rw [if_neg h1, if_pos (by omega)]
  unfold getPixelBrightness
  rw [assertSupportedImageType_ok hs]
  simp only [bind, Except.bind, hc]

theorem intRange_zero_cons {n : Nat} (h : 1 ≤ n) :
    ∃ l, intRange 0 ((n : Int) - 1) = 0 :: l := by
  obtain ⟨k, rfl⟩ : ∃ k, n = k + 1 := ⟨n - 1, by omega⟩
  rw [intRange_zero, List.range_succ_eq_map]
  exact ⟨_, rfl⟩

/-- The whole frame on a well-formed image: the callback returns, the published
image keeps the layout, each pixel carries the marker colour or its threshold
colour, and the centroid is `(0, 0)` or the rounded mean. -/
theorem frame_published {img : Image} (hw : WellFormed img) (thr : Int) :
    ∃ s p, scanLoop img thr = .ok s ∧ ScanInv img thr (grid img) s ∧
      topic_callback_image img thr = .ok p ∧ SameFrame p.thr_image img ∧
      (∀ x y : Nat, x < img.width → y < img.height →
        pixel p.thr_image x y = some (255, 0, 0) ∨
          pixel p.thr_image x y = some (thresholdColor img thr x y)) ∧
      (s.cog_N = 0 → p.cog_x = 0 ∧ p.cog_y = 0) ∧
      (s.cog_N ≠ 0 → p.cog_x = cmath_round (s.cog_sum_x / (s.cog_N : ℚ)) ∧
        p.cog_y = cmath_round (s.cog_sum_y / (s.cog_N : ℚ))) := by
  obtain ⟨s, hs, hi⟩ := scanLoop_inv hw thr
  by_cases hN : s.cog_N = 0
  · refine ⟨s, _, hs, hi, (topic_callback_image_eq hs).trans (finishFrame_zero hN), hi.frame,
      ?_, fun _ => ⟨rfl, rfl⟩, fun h => absurd hN h⟩
    intro x y hx hy
    exact Or.inr (hi.painted (x, y) (mem_grid hx hy))
  · obtain ⟨t, ht, hft, hp⟩ := finishFrame_pos (hi.frame.wellFormed hw) hN
    refine ⟨s, _, hs, hi, (topic_callback_image_eq hs).trans ht, hft.trans_frame hi.frame,
      ?_, fun h => absurd h hN, fun _ => ⟨rfl, rfl⟩⟩
    intro x y hx hy
    have hpx := hp x y (by rw [hi.frame.1]; exact hx) (by rw [hi.frame.2.1]; exact hy)
    show pixel t x y = _ ∨ pixel t x y = _
    rw [hpx]
    split
    · exact Or.inl rfl
    · exact Or.inr (hi.painted (x, y) (mem_grid hx hy))

theorem mem_scan_range {n : Nat} (h : n < 4294967296) {v : Int}
    (hv : v ∈ intRange 0 (toInt n - 1)) : 0 ≤ v ∧ v < (n : Int) := by
  rw [mem_intRange] at hv
  have : toInt n ≤ (n : Int) := by
    unfold toInt
    split <;> omega
  omega

theorem mem_marker_range {n : Nat} (h : n < 4294967296) {c v : Int}
    (hv : v ∈ intRange (MAX_INT 0 (c - 2)) (MIN_INT (toInt (n + 4294967295)) (c + 2))) :
    0 ≤ v ∧ v < (n : Int) := by
  have := toInt_pred_lt_self h
  rw [mem_intRange] at hv
  unfold MAX_INT MIN_INT at hv
  split at hv <;> split at hv <;> omega

theorem isBright_of_ok {img : Image} {thr : Int} {x y : Nat} {b : Int}
    (hb : getPixelBrightness img (x : Int) (y : Int) = .ok b) (hge : b ≥ thr) :
    isBright img thr x y = true := by
  unfold isBright
  rw [hb]
  exact decide_eq_true hge

theorem cmath_round_natCast (n : Nat) : cmath_round ((n : ℚ) / ((1 : Int) : ℚ)) = (n : Int) := by
  rw [cmath_round_of_nonneg (by positivity), Int.floor_eq_iff]
  push_cast
  constructor <;> norm_num

theorem isBright_antitone {img : Image} {t1 t2 : Int} (h : t1 ≤ t2) {x y : Nat}
    (hb : isBright img t2 x y = true) : isBright img t1 x y = true := by
  unfold isBright at hb ⊢
  split
  · next b hv =>
    rw [hv] at hb
    exact decide_eq_true (le_trans h (of_decide_eq_true hb))
  · next e hv =>
    rw [hv] at hb
    exact hb

theorem white_iff_bright {img : Image} {thr : Int} {x y : Nat} :
    some (thresholdColor img thr x y) = some ((255, 255, 255) : Byte × Byte × Byte) ↔
      isBright img thr x y = true := by
  unfold thresholdColor
  cases isBright img thr x y
  · constructor
    · intro h; exact absurd h (by decide)
    · intro h; exact absurd h (by decide)
  · exact ⟨fun _ => rfl, fun _ => rfl⟩

/-! ## The claims -/

/-- C1. Threshold classification: for every well-formed image and every integer
threshold the scan loop of `topic_callback_image` returns, and in the output image
it leaves (before the marker is drawn) every in-bounds pixel `(x, y)` is
`(255, 255, 255)` if `getPixelBrightness` of the source at `(x, y)` is at least the
threshold and `(0, 0, 0)` otherwise. -/
theorem scan_classifies_every_pixel (img : Image) (thr : Int) (hw : WellFormed img) :
    ∃ s, scanLoop img thr = .ok s ∧
      ∀ x y : Nat, x < img.width → y < img.height →
        ∃ b, getPixelBrightness img (x : Int) (y : Int) = .ok b ∧
          pixel s.thr_image x y =
            some (if b ≥ thr then (255, 255, 255) else (0, 0, 0)) := by
  obtain ⟨s, hs, hi⟩ := scanLoop_inv hw thr
  refine ⟨s, hs, ?_⟩
  intro x y hx hy
  obtain ⟨a, b, c, -, hb⟩ := getPixelBrightness_eq hw hx hy
  refine ⟨_, hb, ?_⟩
  have hp := hi.painted (x, y) (by
    unfold grid
    exact Finset.mem_product.mpr ⟨Finset.mem_range.mpr hx, Finset.mem_range.mpr hy⟩)
  rw [hp]
  unfold thresholdColor isBright
  rw [hb]
  by_cases h : cmath_round ((((a.val + b.val + c.val : Nat) : Int) : ℚ) / 3) ≥ thr
  · rw [if_pos h, if_pos (decide_eq_true h)]
  · rw [if_neg h, if_neg (by simpa using h)]

/-- Witness of C1 on the 2 x 2 frame at threshold 240. -/
theorem scan_classifies_every_pixel_witness :
    WellFormed frame2x2 ∧
      ∃ s, scanLoop frame2x2 240 = .ok s ∧
        ∀ x y : Nat, x < frame2x2.width → y < frame2x2.height →
          ∃ b, getPixelBrightness frame2x2 (x : Int) (y : Int) = .ok b ∧
            pixel s.thr_image x y =
              some (if b ≥ 240 then (255, 255, 255) else (0, 0, 0)) :=
  ⟨by decide, scan_classifies_every_pixel frame2x2 240 (by decide)⟩

/-- C4. Empty bright set: for every well-formed image and threshold such that no
pixel's brightness reaches the threshold, the frame is processed, the published
image is the one the scan left (`DrawBigPixel` is not run), every pixel of it is
`(0, 0, 0)`, none has the marker colour, and the centroid is `(0, 0)`. -/
theorem empty_bright_set (img : Image) (thr : Int) (hw : WellFormed img)
    (hdark : ∀ x y : Nat, x < img.width → y < img.height →
      ∀ b, getPixelBrightness img (x : Int) (y : Int) = .ok b → b < thr) :
    ∃ s p, scanLoop img thr = .ok s ∧ topic_callback_image img thr = .ok p ∧
      p.thr_image = s.thr_image ∧ p.cog_x = 0 ∧ p.cog_y = 0 ∧
      ∀ x y : Nat, x < img.width → y < img.height →
        pixel p.thr_image x y = some (0, 0, 0) ∧
          pixel p.thr_image x y ≠ some (255, 0, 0) := by
  obtain ⟨s, hs, hi⟩ := scanLoop_inv hw thr
  have hempty : brightIn img thr (grid img) = ∅ := by
    unfold brightIn
    apply Finset.filter_eq_empty_iff.mpr
    intro p hp
    have hb := hi.bounds p hp
    rw [isBright_eq_false (hdark p.1 p.2 hb.1 hb.2)]
    decide
  have hN : s.cog_N = 0 := by rw [hi.count, hempty]; rfl
  refine ⟨s, _, hs, (topic_callback_image_eq hs).trans (finishFrame_zero hN), rfl, rfl, rfl, ?_⟩
  intro x y hx hy
  have hp := hi.painted (x, y) (mem_grid hx hy)
  have hc : thresholdColor img thr x y = (0, 0, 0) := by
    unfold thresholdColor
    rw [isBright_eq_false (hdark x y hx hy)]
    rfl
  show pixel s.thr_image x y = some (0, 0, 0) ∧ pixel s.thr_image x y ≠ some (255, 0, 0)
  rw [hp, hc]
  exact ⟨rfl, by decide⟩

/-- Witness of C4: the all-200 frame of the spec's scenario at threshold 240. -/
theorem empty_bright_set_witness :
    WellFormed gray4x4 ∧
      (∀ x y : Nat, x < gray4x4.width → y < gray4x4.height →
        ∀ b, getPixelBrightness gray4x4 (x : Int) (y : Int) = .ok b → b < 240) ∧
      ∃ s p, scanLoop gray4x4 240 = .ok s ∧ topic_callback_image gray4x4 240 = .ok p ∧
        p.thr_image = s.thr_image ∧ p.cog_x = 0 ∧ p.cog_y = 0 ∧
        ∀ x y : Nat, x < gray4x4.width → y < gray4x4.height →
          pixel p.thr_image x y = some (0, 0, 0) ∧
            pixel p.thr_image x y ≠ some (255, 0, 0) :=
  have hdark : ∀ x y : Nat, x < gray4x4.width → y < gray4x4.height →
      ∀ b, getPixelBrightness gray4x4 (x : Int) (y : Int) = .ok b → b < 240 :=
    fun x y hx hy =>
      of_isBright_eq_false
        ((by decide! : ∀ x < 4, ∀ y < 4, isBright gray4x4 240 x y = false) x hx y hy)
  ⟨by decide, hdark, empty_bright_set gray4x4 240 (by decide) hdark⟩

/-- C6, as the code behaves: on the supported 2 x 2 frame the writes at `(5, 5)`,
at `(-1, 0)` and at `(0, 2)`, all outside the canvas, are not swallowed;
`setPixelColor` fails with `out_of_range`, which its handler for
`std::runtime_error` does not take. -/
theorem setPixelColor_out_of_range_escapes :
    frame2x2.encoding = Encoding.known 3 8 ∧
      setPixelColor frame2x2 5 5 1 2 3 = .error .out_of_range ∧
      setPixelColor frame2x2 (-1) 0 1 2 3 = .error .out_of_range ∧
      setPixelColor frame2x2 0 2 1 2 3 = .error .out_of_range ∧
      Failure.isRuntimeError .out_of_range = false :=
  ⟨rfl, rfl, rfl, rfl, rfl⟩

/-- C7. Write/read round trip: for every well-formed image, every in-bounds
`(x, y)` and every triple `(c1, c2, c3)` of values in `0..255`,
`setPixelColor im x y c1 c2 c3` returns, and afterwards the bytes at offsets
`step * y + 3 * x + 0, 1, 2` are exactly `c1, c2, c3`, so that reading the pixel
gives the written triple and `getPixelBrightness` reads its rounded mean. -/
theorem write_read_round_trip (im : Image) (x y : Nat) (c1 c2 c3 : Int)
    (hw : WellFormed im) (hx : x < im.width) (hy : y < im.height)
    (h1 : 0 ≤ c1 ∧ c1 ≤ 255) (h2 : 0 ≤ c2 ∧ c2 ≤ 255) (h3 : 0 ≤ c3 ∧ c3 ≤ 255) :
    ∃ im1, setPixelColor im (x : Int) (y : Int) c1 c2 c3 = .ok im1 ∧
      im1.step = im.step ∧
      (im1.data[im1.step * y + 3 * x + 0]?).map (fun b => (b.val : Int)) = some c1 ∧
      (im1.data[im1.step * y + 3 * x + 1]?).map (fun b => (b.val : Int)) = some c2 ∧
      (im1.data[im1.step * y + 3 * x + 2]?).map (fun b => (b.val : Int)) = some c3 ∧
      (pixel im1 x y).map (fun p => ((p.1.val : Int), (p.2.1.val : Int), (p.2.2.val : Int))) =
        some (c1, c2, c3) ∧
      getPixelBrightness im1 (x : Int) (y : Int) =
        .ok (cmath_round (((c1 + c2 + c3 : Int) : ℚ) / 3)) := by
  obtain ⟨im1, hset, hf, hd⟩ := setPixelColor_eq hw hx hy c1 c2 c3
  have hp := pixel_set_same hw hx hy _ _ _ hf.2.2.1 hd
  have hw1 := hf.wellFormed hw
  obtain ⟨a, b, c, hp1, hb⟩ := getPixelBrightness_eq hw1 (by rw [hf.1]; exact hx)
    (by rw [hf.2.1]; exact hy)
  rw [hp] at hp1
  obtain ⟨rfl, rfl, rfl⟩ : toByte c1 = a ∧ toByte c2 = b ∧ toByte c3 = c := by
    simpa using hp1
  have v1 := toByte_val h1.1 h1.2
  have v2 := toByte_val h2.1 h2.2
  have v3 := toByte_val h3.1 h3.2
  obtain ⟨e0, e1, e2⟩ := pixel_eq_some.mp hp
  unfold channel at e0 e1 e2
  refine ⟨im1, hset, hf.2.2.1, ?_, ?_, ?_, ?_, ?_⟩
  · rw [e0, Option.map_some', v1]
  · rw [e1, Option.map_some', v2]
  · rw [e2, Option.map_some', v3]
  · rw [hp, Option.map_some', v1, v2, v3]
  · rw [hb]
    congr 2
    rw [← v1, ← v2, ← v3]
    push_cast
    ring_nf
    simp only [v1, v2, v3]

/-- Witness of C7: writing `(1, 2, 3)` at pixel `(1, 1)` of the 2 x 2 frame. -/
theorem write_read_round_trip_witness :
    WellFormed frame2x2 ∧ 1 < frame2x2.width ∧ 1 < frame2x2.height ∧
      ∃ im1, setPixelColor frame2x2 ((1 : Nat) : Int) ((1 : Nat) : Int) 1 2 3 = .ok im1 ∧
        im1.step = frame2x2.step ∧
        (im1.data[im1.step * 1 + 3 * 1 + 0]?).map (fun b => (b.val : Int)) = some 1 ∧
        (im1.data[im1.step * 1 + 3 * 1 + 1]?).map (fun b => (b.val : Int)) = some 2 ∧
        (im1.data[im1.step * 1 + 3 * 1 + 2]?).map (fun b => (b.val : Int)) = some 3 ∧
        (pixel im1 1 1).map (fun p => ((p.1.val : Int), (p.2.1.val : Int), (p.2.2.val : Int))) =
          some (1, 2, 3) ∧
        getPixelBrightness im1 ((1 : Nat) : Int) ((1 : Nat) : Int) =
          .ok (cmath_round (((1 + 2 + 3 : Int) : ℚ) / 3)) :=
  ⟨by decide, by decide, by decide,
    write_read_round_trip frame2x2 1 1 1 2 3 (by decide) (by decide) (by decide)
      (by decide) (by decide) (by decide)⟩

/-- C9. Final frame output: for every well-formed image with at least one bright
pixel the frame is processed, and the published image has at `(x, y)` the marker
colour `(255, 0, 0)` when `|x - cog_x| ≤ 2` and `|y - cog_y| ≤ 2`, and the
threshold colour of the pixel, `(255, 255, 255)` if bright and `(0, 0, 0)` if
dark, at every other in-bounds coordinate. -/
theorem final_frame_output (img : Image) (thr : Int) (hw : WellFormed img)
    (hbright : ∃ x y : Nat, x < img.width ∧ y < img.height ∧
      ∃ b, getPixelBrightness img (x : Int) (y : Int) = .ok b ∧ b ≥ thr) :
    ∃ p, topic_callback_image img thr = .ok p ∧
      ∀ x y : Nat, x < img.width → y < img.height →
        ∃ b, getPixelBrightness img (x : Int) (y : Int) = .ok b ∧
          pixel p.thr_image x y =
            some (if |(x : Int) - p.cog_x| ≤ 2 ∧ |(y : Int) - p.cog_y| ≤ 2 then (255, 0, 0)
              else if b ≥ thr then (255, 255, 255) else (0, 0, 0)) := by
  obtain ⟨s, hs, hi⟩ := scanLoop_inv hw thr
  obtain ⟨x0, y0, hx0, hy0, b0, hb0, hge0⟩ := hbright
  have hmem : (x0, y0) ∈ brightIn img thr (grid img) := by
    unfold brightIn
    refine Finset.mem_filter.mpr ⟨mem_grid hx0 hy0, ?_⟩
    show isBright img thr x0 y0 = true
    unfold isBright
    rw [hb0]
    exact decide_eq_true hge0
  have hN0 : s.cog_N ≠ 0 := by
    rw [hi.count]
    have : 0 < (brightIn img thr (grid img)).card := Finset.card_pos.mpr ⟨_, hmem⟩
    omega
  obtain ⟨t, ht, -, hp⟩ := finishFrame_pos (hi.frame.wellFormed hw) hN0
  refine ⟨_, (topic_callback_image_eq hs).trans ht, ?_⟩
  intro x y hx hy
  obtain ⟨a, b, c, -, hb⟩ := getPixelBrightness_eq hw hx hy
  refine ⟨_, hb, ?_⟩
  rw [hp x y (by rw [hi.frame.1]; exact hx) (by rw [hi.frame.2.1]; exact hy)]
  show _ = some (if |(x : Int) - cmath_round (s.cog_sum_x / (s.cog_N : ℚ))| ≤ 2 ∧
      |(y : Int) - cmath_round (s.cog_sum_y / (s.cog_N : ℚ))| ≤ 2 then (255, 0, 0)
    else if cmath_round ((((a.val + b.val + c.val : Nat) : Int) : ℚ) / 3) ≥ thr then
      (255, 255, 255) else (0, 0, 0))
  generalize cmath_round (s.cog_sum_x / (s.cog_N : ℚ)) = cx
  generalize cmath_round (s.cog_sum_y / (s.cog_N : ℚ)) = cy
  have hiff : ((cx - 2 ≤ x ∧ (x : Int) ≤ cx + 2) ∧ (cy - 2 ≤ y ∧ (y : Int) ≤ cy + 2)) ↔
      (|(x : Int) - cx| ≤ 2 ∧ |(y : Int) - cy| ≤ 2) := by
    rw [abs_le, abs_le]
    constructor
    · rintro ⟨⟨a1, a2⟩, b1, b2⟩
      exact ⟨⟨by omega, by omega⟩, by omega, by omega⟩
    · rintro ⟨⟨a1, a2⟩, b1, b2⟩
      exact ⟨⟨by omega, by omega⟩, by omega, by omega⟩
  by_cases hc : |(x : Int) - cx| ≤ 2 ∧ |(y : Int) - cy| ≤ 2
  · rw [if_pos hc, if_pos (hiff.mpr hc)]
  · rw [if_neg hc, if_neg (fun h => hc (hiff.mp h))]
    have hpt := hi.painted (x, y) (mem_grid hx hy)
    rw [hpt]
    unfold thresholdColor isBright
    rw [hb]
    by_cases h : cmath_round ((((a.val + b.val + c.val : Nat) : Int) : ℚ) / 3) ≥ thr
    · rw [if_pos h, if_pos (decide_eq_true h)]
    · rw [if_neg h, if_neg (by simpa using h)]

/-- Witness of C9: the 2 x 2 frame at threshold 240, where pixel `(0, 0)` is bright. -/
theorem final_frame_output_witness :
    WellFormed frame2x2 ∧
      (∃ x y : Nat, x < frame2x2.width ∧ y < frame2x2.height ∧
        ∃ b, getPixelBrightness frame2x2 (x : Int) (y : Int) = .ok b ∧ b ≥ 240) ∧
      ∃ p, topic_callback_image frame2x2 240 = .ok p ∧
        ∀ x y : Nat, x < frame2x2.width → y < frame2x2.height →
          ∃ b, getPixelBrightness frame2x2 (x : Int) (y : Int) = .ok b ∧
            pixel p.thr_image x y =
              some (if |(x : Int) - p.cog_x| ≤ 2 ∧ |(y : Int) - p.cog_y| ≤ 2 then (255, 0, 0)
                else if b ≥ 240 then (255, 255, 255) else (0, 0, 0)) :=
  have hbright : ∃ x y : Nat, x < frame2x2.width ∧ y < frame2x2.height ∧
      ∃ b, getPixelBrightness frame2x2 (x : Int) (y : Int) = .ok b ∧ b ≥ 240 :=
    ⟨0, 0, mem_brightPixels.mp (by decide! : ((0 : Nat), (0 : Nat)) ∈ brightPixels frame2x2 240)⟩
  ⟨by decide, hbright, final_frame_output frame2x2 240 (by decide) hbright⟩

/-- C10. Brightness value: for every well-formed image and in-bounds `(x, y)` with
channel bytes `(a, b, c)`, `getPixelBrightness` returns the mean `(a + b + c) / 3`
rounded to the nearest integer, which is `floor((a + b + c + 1) / 3)`, and the
result lies in `0..255`. -/
theorem brightness_value (im : Image) (x y : Nat) (hw : WellFormed im) (hx : x < im.width)
    (hy : y < im.height) :
    ∃ a b c : Byte, pixel im x y = some (a, b, c) ∧
      ∃ r : Int, getPixelBrightness im (x : Int) (y : Int) = .ok r ∧
        r = cmath_round ((((a.val + b.val + c.val : Nat) : Int) : ℚ) / 3) ∧
        r = (((a.val + b.val + c.val + 1) / 3 : Nat) : Int) ∧
        r = ⌊(((a.val + b.val + c.val + 1 : Nat) : ℚ)) / 3⌋ ∧
        0 ≤ r ∧ r ≤ 255 := by
  obtain ⟨a, b, c, hp, hb⟩ := getPixelBrightness_eq hw hx hy
  refine ⟨a, b, c, hp, _, hb, rfl, cmath_round_div_three _, ?_, ?_⟩
  · rw [cmath_round_div_three]
    exact (Rat.floor_natCast_div_natCast _ 3).symm
  · have := getPixelBrightness_range hb
    exact this

/-- Witness of C10: pixel `(1, 1)` of the 2 x 2 frame. -/
theorem brightness_value_witness :
    WellFormed frame2x2 ∧ 1 < frame2x2.width ∧ 1 < frame2x2.height ∧
      ∃ a b c : Byte, pixel frame2x2 1 1 = some (a, b, c) ∧
        ∃ r : Int, getPixelBrightness frame2x2 ((1 : Nat) : Int) ((1 : Nat) : Int) = .ok r ∧
          r = cmath_round ((((a.val + b.val + c.val : Nat) : Int) : ℚ) / 3) ∧
          r = (((a.val + b.val + c.val + 1) / 3 : Nat) : Int) ∧
          r = ⌊(((a.val + b.val + c.val + 1 : Nat) : ℚ)) / 3⌋ ∧
          0 ≤ r ∧ r ≤ 255 :=
  ⟨by decide, by decide, by decide,
    brightness_value frame2x2 1 1 (by decide) (by decide) (by decide)⟩

/-- C11. Brightness is monotonic: if the three channel bytes of pixel A are at least
the corresponding bytes of pixel B, then `getPixelBrightness` returns for A a value
at least the one it returns for B. -/
theorem brightness_monotone (imA imB : Image) (xa ya xb yb : Nat) (a1 a2 a3 b1 b2 b3 : Byte)
    (hA : WellFormed imA) (hB : WellFormed imB)
    (hxa : xa < imA.width) (hya : ya < imA.height)
    (hxb : xb < imB.width) (hyb : yb < imB.height)
    (pA : pixel imA xa ya = some (a1, a2, a3)) (pB : pixel imB xb yb = some (b1, b2, b3))
    (h1 : b1 ≤ a1) (h2 : b2 ≤ a2) (h3 : b3 ≤ a3) :
    ∃ ra rb : Int, getPixelBrightness imA (xa : Int) (ya : Int) = .ok ra ∧
      getPixelBrightness imB (xb : Int) (yb : Int) = .ok rb ∧ rb ≤ ra := by
  obtain ⟨a, b, c, hp, hv⟩ := getPixelBrightness_eq hA hxa hya
  obtain ⟨a', b', c', hp', hv'⟩ := getPixelBrightness_eq hB hxb hyb
  rw [pA] at hp
  rw [pB] at hp'
  obtain ⟨rfl, rfl, rfl⟩ : a1 = a ∧ a2 = b ∧ a3 = c := by simpa using hp
  obtain ⟨rfl, rfl, rfl⟩ : b1 = a' ∧ b2 = b' ∧ b3 = c' := by simpa using hp'
  refine ⟨_, _, hv, hv', ?_⟩
  rw [cmath_round_div_three, cmath_round_div_three]
  have e1 : b1.val ≤ a1.val := h1
  have e2 : b2.val ≤ a2.val := h2
  have e3 : b3.val ≤ a3.val := h3
  have : (b1.val + b2.val + b3.val + 1) / 3 ≤ (a1.val + a2.val + a3.val + 1) / 3 :=
    Nat.div_le_div_right (by omega)
  exact_mod_cast this

/-- Witness of C11: pixels `(0, 0)` and `(1, 0)` of the 2 x 2 frame. -/
theorem brightness_monotone_witness :
    WellFormed frame2x2 ∧ pixel frame2x2 0 0 = some (250, 250, 250) ∧
      pixel frame2x2 1 0 = some (10, 20, 30) ∧
      ∃ ra rb : Int, getPixelBrightness frame2x2 ((0 : Nat) : Int) ((0 : Nat) : Int) = .ok ra ∧
        getPixelBrightness frame2x2 ((1 : Nat) : Int) ((0 : Nat) : Int) = .ok rb ∧ rb ≤ ra :=
  ⟨by decide, by decide, by decide,
    brightness_monotone frame2x2 frame2x2 0 0 1 0 250 250 250 10 20 30 (by decide) (by decide)
      (by decide) (by decide) (by decide) (by decide) (by decide) (by decide) (by decide)
      (by decide) (by decide)⟩

/-- C12, counterexample: the 1 x 1 three-channel 8-bit frame whose buffer is empty.
The format is supported and `(0, 0)` is in range, yet `getPixelBrightness` does not
return a value: it reads `data` beyond its end. -/
theorem read_policy_fails_on_truncated_buffer :
    truncated1x1.encoding = Encoding.known 3 8 ∧
      (0 : Int) ≤ 0 ∧ (0 : Int) < (truncated1x1.width : Int) ∧
      (0 : Int) ≤ 0 ∧ (0 : Int) < (truncated1x1.height : Int) ∧
      getPixelBrightness truncated1x1 0 0 = .error .undefined ∧
      ¬ ∃ v, getPixelBrightness truncated1x1 0 0 = .ok v := by
  refine ⟨rfl, by decide, by decide, by decide, by decide, rfl, ?_⟩
  rintro ⟨v, hv⟩
  have h : getPixelBrightness truncated1x1 0 0 = .error .undefined := rfl
  rw [h] at hv
  exact absurd hv (by simp)

/-- C12, amended: for every image that, when its format is supported, holds its
pixels (`step ≥ 3 * width`, `data` at least `step * height` bytes) and every
integer `(x, y)`, `getPixelBrightness` returns a value if and only if the format
is three channels of eight bits and `0 ≤ x < width`, `0 ≤ y < height`; it fails
with the runtime error whenever the format is unsupported, whatever the
coordinate, and with `out_of_range` exactly when the format is supported and the
coordinate is out of range. -/
theorem read_error_policy (im : Image) (x y : Int)
    (hlay : im.encoding = Encoding.known 3 8 →
      3 * im.width ≤ im.step ∧ im.step * im.height ≤ im.data.length) :
    ((∃ v, getPixelBrightness im x y = .ok v) ↔
      (im.encoding = Encoding.known 3 8 ∧
        0 ≤ x ∧ x < (im.width : Int) ∧ 0 ≤ y ∧ y < (im.height : Int))) ∧
    (im.encoding ≠ Encoding.known 3 8 → getPixelBrightness im x y = .error .runtime_error) ∧
    (getPixelBrightness im x y = .error .out_of_range ↔
      (im.encoding = Encoding.known 3 8 ∧
        ¬ (0 ≤ x ∧ x < (im.width : Int) ∧ 0 ≤ y ∧ y < (im.height : Int)))) := by
  by_cases hs : im.encoding = Encoding.known 3 8
  · have hw : WellFormed im := ⟨hs, (hlay hs).1, (hlay hs).2⟩
    by_cases hr : 0 ≤ x ∧ x < (im.width : Int) ∧ 0 ≤ y ∧ y < (im.height : Int)
    · obtain ⟨hx0, hxw, hy0, hyh⟩ := hr
      obtain ⟨n, rfl⟩ := Int.eq_ofNat_of_zero_le hx0
      obtain ⟨m, rfl⟩ := Int.eq_ofNat_of_zero_le hy0
      obtain ⟨a, b, c, -, hv⟩ := getPixelBrightness_eq hw (show n < im.width by exact_mod_cast hxw)
        (show m < im.height by exact_mod_cast hyh)
      refine ⟨⟨fun _ => ⟨hs, hx0, hxw, hy0, hyh⟩, fun _ => ⟨_, hv⟩⟩, fun h => absurd hs h, ?_⟩
      rw [hv]
      constructor
      · intro h; exact absurd h (by simp)
      · rintro ⟨-, h⟩; exact absurd ⟨hx0, hxw, hy0, hyh⟩ h
    · have hwi := toInt_of_lt hw.width_lt
      have hout : ¬ (0 ≤ x ∧ x < toInt im.width ∧ 0 ≤ y ∧ y < toInt im.height) := by
        rintro ⟨h1, h2, h3, h4⟩
        rw [hwi] at h2
        have hpos : 0 < im.width := by omega
        rw [toInt_of_lt (hw.height_lt hpos)] at h4
        exact hr ⟨h1, h2, h3, h4⟩
      have he := getPixelBrightness_outside hs hout
      refine ⟨⟨?_, fun h => absurd h.2 hr⟩, fun h => absurd hs h, fun _ => ⟨hs, hr⟩, fun _ => he⟩
      rintro ⟨v, hv⟩
      rw [he] at hv
      exact absurd hv (by simp)
  · have he := getPixelBrightness_unsupported hs x y
    refine ⟨⟨?_, fun h => absurd h.1 hs⟩, fun _ => he, ?_, fun h => absurd h.1 hs⟩
    · rintro ⟨v, hv⟩
      rw [he] at hv
      exact absurd hv (by simp)
    · intro h
      rw [he] at h
      exact absurd h (by simp)

/-- Witness of C12, amended: coordinate `(5, 5)` on the 2 x 2 frame. -/
theorem read_error_policy_witness :
    (frame2x2.encoding = Encoding.known 3 8 →
      3 * frame2x2.width ≤ frame2x2.step ∧
        frame2x2.step * frame2x2.height ≤ frame2x2.data.length) ∧
    ((∃ v, getPixelBrightness frame2x2 5 5 = .ok v) ↔
      (frame2x2.encoding = Encoding.known 3 8 ∧
        (0 : Int) ≤ 5 ∧ (5 : Int) < (frame2x2.width : Int) ∧
        (0 : Int) ≤ 5 ∧ (5 : Int) < (frame2x2.height : Int))) ∧
    (frame2x2.encoding ≠ Encoding.known 3 8 →
      getPixelBrightness frame2x2 5 5 = .error .runtime_error) ∧
    (getPixelBrightness frame2x2 5 5 = .error .out_of_range ↔
      (frame2x2.encoding = Encoding.known 3 8 ∧
        ¬ ((0 : Int) ≤ 5 ∧ (5 : Int) < (frame2x2.width : Int) ∧
          (0 : Int) ≤ 5 ∧ (5 : Int) < (frame2x2.height : Int)))) :=
  have hlay : frame2x2.encoding = Encoding.known 3 8 →
      3 * frame2x2.width ≤ frame2x2.step ∧
        frame2x2.step * frame2x2.height ≤ frame2x2.data.length :=
    fun _ => ⟨by decide, by decide⟩
  ⟨hlay, read_error_policy frame2x2 5 5 hlay⟩

/-- C13, counterexample: a one-channel frame of width 1 whose height field is
`2^31`.  The cast of the height to `int` is negative, the scan loop is not
entered, and the callback publishes `(0, 0)` and a copy of the frame instead of
failing with the format error. -/
theorem unsupported_format_not_fatal_on_tall_frame :
    1 ≤ tallMono.width ∧ 1 ≤ tallMono.height ∧ tallMono.encoding ≠ Encoding.known 3 8 ∧
      getImageHeight tallMono = -2147483648 ∧
      topic_callback_image tallMono 240 = .ok (Published.mk 0 0 tallMono) :=
  ⟨by decide, by decide, by decide, by decide, rfl⟩

/-- C13, amended: for every image with width and height at least 1 whose encoding
is not three channels of eight bits, `setPixelColor` fails with the runtime error
of the format check, for every coordinate and colour; and when width and height
are below `2^31` the frame callback fails with that error, so that nothing is
published. -/
theorem unsupported_format_is_fatal (img : Image) (thr x y c1 c2 c3 : Int)
    (hw1 : 1 ≤ img.width) (hh1 : 1 ≤ img.height)
    (hu : img.encoding ≠ Encoding.known 3 8) :
    setPixelColor img x y c1 c2 c3 = .error .runtime_error ∧
      (img.width < 2147483648 → img.height < 2147483648 →
        topic_callback_image img thr = .error .runtime_error ∧
          ¬ ∃ p, topic_callback_image img thr = .ok p) := by
  refine ⟨setPixelColor_unsupported hu x y c1 c2 c3, ?_⟩
  intro hw2 hh2
  have hscan : scanLoop img thr = .error .runtime_error := by
    unfold scanLoop getImageHeight
    rw [toInt_of_lt hh2]
    obtain ⟨l, hl⟩ := intRange_zero_cons hh1
    rw [hl, List.foldlM_cons]
    have hrow : ∀ s, scanRow img thr s 0 = .error .runtime_error := by
      intro s
      unfold scanRow getImageWidth
      rw [toInt_of_lt hw2]
      obtain ⟨l1, hl1⟩ := intRange_zero_cons hw1
      rw [hl1, List.foldlM_cons]
      unfold scanPixel
      rw [getPixelBrightness_unsupported hu]
      rfl
    rw [hrow]
    rfl
  have htop : topic_callback_image img thr = .error .runtime_error := by
    unfold topic_callback_image
    rw [hscan]
    rfl
  refine ⟨htop, ?_⟩
  rintro ⟨p, hp⟩
  rw [htop] at hp
  exact absurd hp (by simp)

/-- Witness of C13, amended: the 2 x 2 one-channel frame. -/
theorem unsupported_format_is_fatal_witness :
    1 ≤ mono2x2.width ∧ 1 ≤ mono2x2.height ∧ mono2x2.encoding ≠ Encoding.known 3 8 ∧
      mono2x2.width < 2147483648 ∧ mono2x2.height < 2147483648 ∧
      setPixelColor mono2x2 0 0 255 255 255 = .error .runtime_error ∧
      (mono2x2.width < 2147483648 → mono2x2.height < 2147483648 →
        topic_callback_image mono2x2 240 = .error .runtime_error ∧
          ¬ ∃ p, topic_callback_image mono2x2 240 = .ok p) :=
  ⟨by decide, by decide, by decide, by decide, by decide,
    unsupported_format_is_fatal mono2x2 240 0 0 255 255 255 (by decide) (by decide)
      (by decide)⟩

/-- C14. The scan never fails on a valid frame: for every image of supported format
with `step ≥ 3 * width` and `data` of `step * height` bytes, and every threshold,
the frame callback returns (scan, centroid and marker raise nothing); the
coordinates visited by the scan loops and by the marker loops are in range, the
output buffer has the length and stride of the input, and for an in-range
coordinate every byte offset `step * y + 3 * x + k`, `k < 3`, is below the data
length. -/
theorem frame_never_fails (img : Image) (thr : Int)
    (hs : img.encoding = Encoding.known 3 8) (hstep : 3 * img.width ≤ img.step)
    (hlen : img.data.length = img.step * img.height) :
    ∃ p, topic_callback_image img thr = .ok p ∧
      p.thr_image.step = img.step ∧ p.thr_image.data.length = img.data.length ∧
      (∀ xx ∈ intRange 0 (getImageWidth img - 1), 0 ≤ xx ∧ xx < (img.width : Int)) ∧
      (∀ yy ∈ intRange 0 (getImageHeight img - 1), 0 ≤ yy ∧ yy < (img.height : Int)) ∧
      (∀ xx ∈ intRange (MAX_INT 0 (p.cog_x - 2))
          (MIN_INT (toInt (img.width + 4294967295)) (p.cog_x + 2)),
        0 ≤ xx ∧ xx < (img.width : Int)) ∧
      (∀ yy ∈ intRange (MAX_INT 0 (p.cog_y - 2))
          (MIN_INT (toInt (img.height + 4294967295)) (p.cog_y + 2)),
        0 ≤ yy ∧ yy < (img.height : Int)) ∧
      (∀ x y k : Nat, x < img.width → y < img.height → k < 3 →
        offset img (x : Int) (y : Int) k = img.step * y + 3 * x + k ∧
          img.step * y + 3 * x + k < img.data.length) := by
  have hw : WellFormed img := ⟨hs, hstep, le_of_eq hlen.symm⟩
  have hf := img.fits
  obtain ⟨s, p, -, -, hp, hfr, -, -, -⟩ := frame_published hw thr
  refine ⟨p, hp, hfr.2.2.1, hfr.2.2.2.2, ?_, ?_, ?_, ?_, ?_⟩
  · intro v hv
    exact mem_scan_range hf.1 hv
  · intro v hv
    exact mem_scan_range hf.2.1 hv
  · intro v hv
    exact mem_marker_range hf.1 hv
  · intro v hv
    exact mem_marker_range hf.2.1 hv
  · intro x y k hx hy hk
    exact ⟨offset_eq hw hx hy hk, byte_index_lt hw.2.1 hw.2.2 hx hy hk⟩

/-- Witness of C14: the packed 2 x 2 frame at threshold 240. -/
theorem frame_never_fails_witness :
    packed2x2.encoding = Encoding.known 3 8 ∧ 3 * packed2x2.width ≤ packed2x2.step ∧
      packed2x2.data.length = packed2x2.step * packed2x2.height ∧
      ∃ p, topic_callback_image packed2x2 240 = .ok p ∧
        p.thr_image.step = packed2x2.step ∧
        p.thr_image.data.length = packed2x2.data.length ∧
        (∀ xx ∈ intRange 0 (getImageWidth packed2x2 - 1),
          0 ≤ xx ∧ xx < (packed2x2.width : Int)) ∧
        (∀ yy ∈ intRange 0 (getImageHeight packed2x2 - 1),
          0 ≤ yy ∧ yy < (packed2x2.height : Int)) ∧
        (∀ xx ∈ intRange (MAX_INT 0 (p.cog_x - 2))
            (MIN_INT (toInt (packed2x2.width + 4294967295)) (p.cog_x + 2)),
          0 ≤ xx ∧ xx < (packed2x2.width : Int)) ∧
        (∀ yy ∈ intRange (MAX_INT 0 (p.cog_y - 2))
            (MIN_INT (toInt (packed2x2.height + 4294967295)) (p.cog_y + 2)),
          0 ≤ yy ∧ yy < (packed2x2.height : Int)) ∧
        (∀ x y k : Nat, x < packed2x2.width → y < packed2x2.height → k < 3 →
          offset packed2x2 (x : Int) (y : Int) k = packed2x2.step * y + 3 * x + k ∧
            packed2x2.step * y + 3 * x + k < packed2x2.data.length) :=
  ⟨rfl, by decide, by decide, frame_never_fails packed2x2 240 rfl (by decide) (by decide)⟩

/-- C15. Binary output: for every well-formed image and threshold the frame callback
returns, every channel byte of every in-bounds pixel of the published image is 0
or 255, the pixels under the marker included, and the published image has the
width and height of the input. -/
theorem published_image_is_binary (img : Image) (thr : Int) (hw : WellFormed img) :
    ∃ p, topic_callback_image img thr = .ok p ∧
      p.thr_image.width = img.width ∧ p.thr_image.height = img.height ∧
      ∀ x y : Nat, x < img.width → y < img.height →
        ∃ a b c : Byte, pixel p.thr_image x y = some (a, b, c) ∧
          (a = 0 ∨ a = 255) ∧ (b = 0 ∨ b = 255) ∧ (c = 0 ∨ c = 255) := by
  obtain ⟨s, p, -, -, hp, hfr, hpix, -, -⟩ := frame_published hw thr
  refine ⟨p, hp, hfr.1, hfr.2.1, ?_⟩
  intro x y hx hy
  rcases hpix x y hx hy with h | h
  · exact ⟨255, 0, 0, h, Or.inr rfl, Or.inl rfl, Or.inl rfl⟩
  · unfold thresholdColor at h
    split at h
    · exact ⟨255, 255, 255, h, Or.inr rfl, Or.inr rfl, Or.inr rfl⟩
    · exact ⟨0, 0, 0, h, Or.inl rfl, Or.inl rfl, Or.inl rfl⟩

/-- Witness of C15 on the 2 x 2 frame at threshold 240. -/
theorem published_image_is_binary_witness :
    WellFormed frame2x2 ∧
      ∃ p, topic_callback_image frame2x2 240 = .ok p ∧
        p.thr_image.width = frame2x2.width ∧ p.thr_image.height = frame2x2.height ∧
        ∀ x y : Nat, x < frame2x2.width → y < frame2x2.height →
          ∃ a b c : Byte, pixel p.thr_image x y = some (a, b, c) ∧
            (a = 0 ∨ a = 255) ∧ (b = 0 ∨ b = 255) ∧ (c = 0 ∨ c = 255) :=
  ⟨by decide, published_image_is_binary frame2x2 240 (by decide)⟩

/-- C16. Single bright pixel: for every well-formed image and threshold such that
exactly one pixel `(px, py)` has brightness at least the threshold, the frame is
processed and the centroid is `(px, py)`. -/
theorem single_bright_pixel_centroid (img : Image) (thr : Int) (px py : Nat)
    (hw : WellFormed img) (hpx : px < img.width) (hpy : py < img.height)
    (hb : ∃ b, getPixelBrightness img (px : Int) (py : Int) = .ok b ∧ b ≥ thr)
    (huniq : ∀ x y : Nat, x < img.width → y < img.height →
      ∀ b, getPixelBrightness img (x : Int) (y : Int) = .ok b → b ≥ thr → x = px ∧ y = py) :
    ∃ p, topic_callback_image img thr = .ok p ∧ p.cog_x = (px : Int) ∧ p.cog_y = (py : Int) := by
  obtain ⟨s, p, -, hi, hp, -, -, -, hcog⟩ := frame_published hw thr
  obtain ⟨b, hb1, hb2⟩ := hb
  have hset : brightIn img thr (grid img) = {(px, py)} := by
    ext ⟨x, y⟩
    unfold brightIn
    rw [Finset.mem_filter, Finset.mem_singleton]
    constructor
    · rintro ⟨hm, hbr⟩
      have hbd := hi.bounds (x, y) hm
      obtain ⟨a1, a2, a3, -, hv⟩ := getPixelBrightness_eq hw hbd.1 hbd.2
      have := huniq x y hbd.1 hbd.2 _ hv (of_isBright_eq_true hbr _ hv)
      rw [this.1, this.2]
    · intro he
      obtain ⟨rfl, rfl⟩ := Prod.mk.inj he
      exact ⟨mem_grid hpx hpy, isBright_of_ok hb1 hb2⟩
  have hN : s.cog_N = 1 := by rw [hi.count, hset]; rfl
  have hx : s.cog_sum_x = (px : ℚ) := by rw [hi.sum_x, hset, Finset.sum_singleton]
  have hy : s.cog_sum_y = (py : ℚ) := by rw [hi.sum_y, hset, Finset.sum_singleton]
  obtain ⟨h1, h2⟩ := hcog (by rw [hN]; decide)
  rw [hN, hx] at h1
  rw [hN, hy] at h2
  exact ⟨p, hp, h1.trans (cmath_round_natCast px), h2.trans (cmath_round_natCast py)⟩

/-- Witness of C16: the spec's scenario, pixel `(3, 3)` at brightness 250 among pixels
of brightness 200, threshold 240, centroid `(3, 3)`. -/
theorem single_bright_pixel_centroid_witness :
    WellFormed spot4x4 ∧ 3 < spot4x4.width ∧ 3 < spot4x4.height ∧
      (∃ b, getPixelBrightness spot4x4 ((3 : Nat) : Int) ((3 : Nat) : Int) = .ok b ∧ b ≥ 240) ∧
      (∀ x y : Nat, x < spot4x4.width → y < spot4x4.height →
        ∀ b, getPixelBrightness spot4x4 (x : Int) (y : Int) = .ok b → b ≥ 240 →
          x = 3 ∧ y = 3) ∧
      ∃ p, topic_callback_image spot4x4 240 = .ok p ∧ p.cog_x = ((3 : Nat) : Int) ∧
        p.cog_y = ((3 : Nat) : Int) :=
  have hb : ∃ b, getPixelBrightness spot4x4 ((3 : Nat) : Int) ((3 : Nat) : Int) = .ok b ∧
      b ≥ 240 :=
    (mem_brightPixels.mp
      (by decide! : ((3 : Nat), (3 : Nat)) ∈ brightPixels spot4x4 240)).2.2
  have huniq : ∀ x y : Nat, x < spot4x4.width → y < spot4x4.height →
      ∀ b, getPixelBrightness spot4x4 (x : Int) (y : Int) = .ok b → b ≥ 240 →
        x = 3 ∧ y = 3 :=
    fun x y hx hy _ hv hge =>
      (by decide! : ∀ x < 4, ∀ y < 4, isBright spot4x4 240 x y = true → x = 3 ∧ y = 3)
        x hx y hy (isBright_of_ok hv hge)
  ⟨by decide, by decide, by decide, hb, huniq,
    single_bright_pixel_centroid spot4x4 240 3 3 (by decide) (by decide) (by decide) hb huniq⟩

/-- C17. Metadata clone: after `copyImageProperties(dst, src)` the destination has
the width, height, step and encoding of the source and a buffer of the same
length (the bytes are copied too); the source is a value the call does not touch. -/
theorem copyImageProperties_clones (dst src : Image) :
    (copyImageProperties dst src).width = src.width ∧
      (copyImageProperties dst src).height = src.height ∧
      (copyImageProperties dst src).step = src.step ∧
      (copyImageProperties dst src).encoding = src.encoding ∧
      (copyImageProperties dst src).data.length = src.data.length ∧
      (copyImageProperties dst src).data = src.data :=
  ⟨rfl, rfl, rfl, rfl, rfl, rfl⟩

/-- C18. Pixel write frame condition: for every well-formed image and in-bounds
`(x, y)`, `setPixelColor` returns and changes only the three bytes of pixel
`(x, y)`: every other byte of the buffer, hence the channel bytes of every other
in-bounds pixel, the data length, width, height, step and encoding are unchanged. -/
theorem setPixelColor_frame_condition (im : Image) (x y : Nat) (c1 c2 c3 : Int)
    (hw : WellFormed im) (hx : x < im.width) (hy : y < im.height) :
    ∃ im1, setPixelColor im (x : Int) (y : Int) c1 c2 c3 = .ok im1 ∧
      im1.width = im.width ∧ im1.height = im.height ∧ im1.step = im.step ∧
      im1.encoding = im.encoding ∧ im1.data.length = im.data.length ∧
      (∀ i : Nat, i ≠ im.step * y + 3 * x + 0 → i ≠ im.step * y + 3 * x + 1 →
        i ≠ im.step * y + 3 * x + 2 → im1.data[i]? = im.data[i]?) ∧
      (∀ x1 y1 : Nat, x1 < im.width → y1 < im.height → ¬ (x1 = x ∧ y1 = y) →
        pixel im1 x1 y1 = pixel im x1 y1 ∧
          ∀ k, k < 3 → channel im1 x1 y1 k = channel im x1 y1 k) := by
  obtain ⟨im1, hset, hf, hd⟩ := setPixelColor_eq hw hx hy c1 c2 c3
  have hbytes : ∀ i : Nat, i ≠ im.step * y + 3 * x + 0 → i ≠ im.step * y + 3 * x + 1 →
      i ≠ im.step * y + 3 * x + 2 → im1.data[i]? = im.data[i]? := by
    intro i h0 h1 h2
    rw [hd, List.getElem?_set_ne (Ne.symm h2), List.getElem?_set_ne (Ne.symm h1),
      List.getElem?_set_ne (Ne.symm h0)]
  refine ⟨im1, hset, hf.1, hf.2.1, hf.2.2.1, hf.2.2.2.1, hf.2.2.2.2, hbytes, ?_⟩
  intro x1 y1 hx1 _ hne
  refine ⟨pixel_set_other hw hx hx1 hne _ _ _ hf.2.2.1 hd, ?_⟩
  intro k hk
  have key : ∀ j, j < 3 → im.step * y1 + 3 * x1 + k ≠ im.step * y + 3 * x + j := by
    intro j hj he
    obtain ⟨e1, e2, -⟩ := index_inj hw.2.1 hx1 hx hk hj he
    exact hne ⟨e1, e2⟩
  unfold channel
  rw [hf.2.2.1]
  exact hbytes _ (key 0 (by omega)) (key 1 (by omega)) (key 2 (by omega))

/-- Witness of C18: writing `(1, 2, 3)` at pixel `(0, 1)` of the 2 x 2 frame. -/
theorem setPixelColor_frame_condition_witness :
    WellFormed frame2x2 ∧ 0 < frame2x2.width ∧ 1 < frame2x2.height ∧
      ∃ im1, setPixelColor frame2x2 ((0 : Nat) : Int) ((1 : Nat) : Int) 1 2 3 = .ok im1 ∧
        im1.width = frame2x2.width ∧ im1.height = frame2x2.height ∧
        im1.step = frame2x2.step ∧ im1.encoding = frame2x2.encoding ∧
        im1.data.length = frame2x2.data.length ∧
        (∀ i : Nat, i ≠ frame2x2.step * 1 + 3 * 0 + 0 → i ≠ frame2x2.step * 1 + 3 * 0 + 1 →
          i ≠ frame2x2.step * 1 + 3 * 0 + 2 → im1.data[i]? = frame2x2.data[i]?) ∧
        (∀ x1 y1 : Nat, x1 < frame2x2.width → y1 < frame2x2.height → ¬ (x1 = 0 ∧ y1 = 1) →
          pixel im1 x1 y1 = pixel frame2x2 x1 y1 ∧
            ∀ k, k < 3 → channel im1 x1 y1 k = channel frame2x2 x1 y1 k) :=
  ⟨by decide, by decide, by decide,
    setPixelColor_frame_condition frame2x2 0 1 1 2 3 (by decide) (by decide) (by decide)⟩

/-- C20. Threshold anti-monotonicity: for every well-formed image and thresholds
`t1 ≤ t2` both scans return, every pixel the scan at `t2` paints white is painted
white by the scan at `t1`, the bright pixels at `t2` are among those at `t1`, and
the count `cog_N` at `t2` is at most the count at `t1`; with `t1 ≤ 0` every pixel
is bright and with `t2 > 255` none is. -/
theorem threshold_antitone (img : Image) (t1 t2 : Int) (hw : WellFormed img) (h12 : t1 ≤ t2) :
    ∃ s1 s2, scanLoop img t1 = .ok s1 ∧ scanLoop img t2 = .ok s2 ∧
      (∀ x y : Nat, x < img.width → y < img.height →
        pixel s2.thr_image x y = some (255, 255, 255) →
          pixel s1.thr_image x y = some (255, 255, 255)) ∧
      brightPixels img t2 ⊆ brightPixels img t1 ∧
      s2.cog_N ≤ s1.cog_N ∧
      (t1 ≤ 0 → s1.cog_N = ((img.width * img.height : Nat) : Int) ∧
        ∀ x y : Nat, x < img.width → y < img.height →
          pixel s1.thr_image x y = some (255, 255, 255)) ∧
      (255 < t2 → s2.cog_N = 0 ∧
        ∀ x y : Nat, x < img.width → y < img.height →
          pixel s2.thr_image x y = some (0, 0, 0)) := by
  obtain ⟨s1, hs1, hi1⟩ := scanLoop_inv hw t1
  obtain ⟨s2, hs2, hi2⟩ := scanLoop_inv hw t2
  have hsub : brightPixels img t2 ⊆ brightPixels img t1 := by
    intro q hq
    unfold brightPixels brightIn at hq ⊢
    rw [Finset.mem_filter] at hq ⊢
    exact ⟨hq.1, isBright_antitone h12 hq.2⟩
  refine ⟨s1, s2, hs1, hs2, ?_, hsub, ?_, ?_, ?_⟩
  · intro x y hx hy hwhite
    rw [hi2.painted (x, y) (mem_grid hx hy)] at hwhite
    rw [hi1.painted (x, y) (mem_grid hx hy)]
    exact white_iff_bright.mpr (isBright_antitone h12 (white_iff_bright.mp hwhite))
  · rw [hi1.count, hi2.count]
    exact_mod_cast Finset.card_le_card hsub
  · intro h0
    have hall : ∀ x y : Nat, x < img.width → y < img.height → isBright img t1 x y = true := by
      intro x y hx hy
      exact isBright_eq_true hw hx hy
        (fun b hb => le_trans h0 (getPixelBrightness_range hb).1)
    constructor
    · rw [hi1.count]
      have : brightIn img t1 (grid img) = grid img := by
        unfold brightIn
        apply Finset.filter_true_of_mem
        intro q hq
        have hb := hi1.bounds q hq
        exact hall q.1 q.2 hb.1 hb.2
      rw [this]
      unfold grid
      rw [Finset.card_product, Finset.card_range, Finset.card_range]
    · intro x y hx hy
      rw [hi1.painted (x, y) (mem_grid hx hy)]
      exact white_iff_bright.mpr (hall x y hx hy)
  · intro h255
    have hnone : ∀ x y : Nat, isBright img t2 x y = false := by
      intro x y
      exact isBright_eq_false (fun b hb => lt_of_le_of_lt (getPixelBrightness_range hb).2 h255)
    constructor
    · rw [hi2.count]
      have : brightIn img t2 (grid img) = ∅ := by
        unfold brightIn
        apply Finset.filter_eq_empty_iff.mpr
        intro q _
        rw [hnone q.1 q.2]
        decide
      rw [this]
      rfl
    · intro x y hx hy
      rw [hi2.painted (x, y) (mem_grid hx hy)]
      unfold thresholdColor
      rw [hnone x y]
      rfl

/-- Witness of C20 on the 2 x 2 frame with thresholds 0 and 256. -/
theorem threshold_antitone_witness :
    WellFormed frame2x2 ∧ (0 : Int) ≤ 256 ∧
      ∃ s1 s2, scanLoop frame2x2 0 = .ok s1 ∧ scanLoop frame2x2 256 = .ok s2 ∧
        (∀ x y : Nat, x < frame2x2.width → y < frame2x2.height →
          pixel s2.thr_image x y = some (255, 255, 255) →
            pixel s1.thr_image x y = some (255, 255, 255)) ∧
        brightPixels frame2x2 256 ⊆ brightPixels frame2x2 0 ∧
        s2.cog_N ≤ s1.cog_N ∧
        ((0 : Int) ≤ 0 → s1.cog_N = ((frame2x2.width * frame2x2.height : Nat) : Int) ∧
          ∀ x y : Nat, x < frame2x2.width → y < frame2x2.height →
            pixel s1.thr_image x y = some (255, 255, 255)) ∧
        ((255 : Int) < 256 → s2.cog_N = 0 ∧
          ∀ x y : Nat, x < frame2x2.width → y < frame2x2.height →
            pixel s2.thr_image x y = some (0, 0, 0)) :=
  ⟨by decide, by decide, threshold_antitone frame2x2 0 256 (by decide) (by decide)⟩

end JiwySimulator
